import Mathlib

/-!
Verification of the Minesweeper AI knowledge-base inference engine
(`Sentence` and `MinesweeperAI` of `minesweeper.py`), shallowly embedded:
Python sets of cells become `Finset (ℕ × ℕ)`, the knowledge list becomes a
`List Sentence`, integer counts become `ℤ`, and the while-loop of
`add_knowledge` becomes a fuel-indexed iteration returning `Option`.
-/

set_option maxRecDepth 10000

abbrev Cell : Type := ℕ × ℕ

/-- A logical statement about the game: a set of board cells and a count of
how many of them are mines (`Sentence` in the source). -/
structure Sentence where
  cells : Finset Cell
  count : ℤ
  deriving DecidableEq

/-- `Sentence.known_mines`: if the count equals the number of cells, all
cells must be mines. -/
def Sentence.known_mines (t : Sentence) : Finset Cell :=
  if (t.cells.card : ℤ) = t.count then t.cells else ∅

/-- `Sentence.known_safes`: if the count is 0, all cells must be safe. -/
def Sentence.known_safes (t : Sentence) : Finset Cell :=
  if t.count = 0 then t.cells else ∅

/-- `Sentence.mark_mine`: if the cell is in the sentence, remove it and
decrement the count. -/
def Sentence.mark_mine (t : Sentence) (c : Cell) : Sentence :=
  if c ∈ t.cells then ⟨t.cells.erase c, t.count - 1⟩ else t

/-- `Sentence.mark_safe`: if the cell is in the sentence, remove it
(count unchanged). -/
def Sentence.mark_safe (t : Sentence) (c : Cell) : Sentence :=
  if c ∈ t.cells then ⟨t.cells.erase c, t.count⟩ else t

/-- The state of `MinesweeperAI`. -/
structure AIState where
  height : ℕ
  width : ℕ
  moves_made : Finset Cell
  mines : Finset Cell
  safes : Finset Cell
  knowledge : List Sentence
  deriving DecidableEq

/-- `MinesweeperAI.__init__`. -/
def freshAI (height width : ℕ) : AIState :=
  ⟨height, width, ∅, ∅, ∅, []⟩

/-- `MinesweeperAI.mark_mine`: add the cell to `mines` and propagate into
every sentence. -/
def AIState.mark_mine (s : AIState) (c : Cell) : AIState :=
  { s with mines := insert c s.mines,
           knowledge := s.knowledge.map (fun t => t.mark_mine c) }

/-- `MinesweeperAI.mark_safe`: add the cell to `safes` and propagate into
every sentence. -/
def AIState.mark_safe (s : AIState) (c : Cell) : AIState :=
  { s with safes := insert c s.safes,
           knowledge := s.knowledge.map (fun t => t.mark_safe c) }

/-- The neighbourhood loop of `add_knowledge`:
`for i in range(max(0, cell[0]-1), min(height, cell[0]+2))` and likewise for
`j`, skipping `cell` itself.  (Nat subtraction `cell.1 - 1` is exactly
`max(0, cell[0]-1)`.) -/
def neighbors (height width : ℕ) (cell : Cell) : Finset Cell :=
  ((Finset.Ico (cell.1 - 1) (min height (cell.1 + 2))) ×ˢ
   (Finset.Ico (cell.2 - 1) (min width (cell.2 + 2)))).filter (fun p => p ≠ cell)

/-- Steps 1–3 of `add_knowledge`: record the move, mark the cell safe, and
append the new sentence over the undetermined neighbours (count adjusted by
the known mines among the neighbours) unless it is empty or already present. -/
def addKnowledgeInit (s : AIState) (cell : Cell) (count : ℤ) : AIState :=
  let s1 : AIState := { s with moves_made := insert cell s.moves_made }
  let s2 := s1.mark_safe cell
  let nbrs := neighbors s.height s.width cell
  let undetermined := (nbrs \ s2.safes) \ s2.mines
  let adjusted := count - ((nbrs ∩ s2.mines).card : ℤ)
  if undetermined ≠ ∅ then
    if (⟨undetermined, adjusted⟩ : Sentence) ∉ s2.knowledge then
      { s2 with knowledge := s2.knowledge ++ [⟨undetermined, adjusted⟩] }
    else s2
  else s2

/-- The `safes |= ...` / `mines |= ...` accumulation over the knowledge list. -/
def foldUnion (k : List Sentence) (f : Sentence → Finset Cell) : Finset Cell :=
  k.foldl (fun acc t => acc ∪ f t) ∅

/-- Net effect on one sentence of the `mark_safe` calls for a set of newly
discovered safe cells: the cells are removed, the count is unchanged. -/
def Sentence.removeSafes (t : Sentence) (ns : Finset Cell) : Sentence :=
  ⟨t.cells \ ns, t.count⟩

/-- Net effect on one sentence of the `mark_mine` calls for a set of newly
discovered mine cells: each such cell still present is removed and the count
is decremented once per removed cell. -/
def Sentence.removeMines (t : Sentence) (nm : Finset Cell) : Sentence :=
  ⟨t.cells \ nm, t.count - ((t.cells ∩ nm).card : ℤ)⟩

/-- The body of the two inner `for` loops of the subset-inference step: if
`s1 != s2`, both cell sets are non-empty and `s1.cells ⊆ s2.cells`, derive
the difference sentence and append it to the accumulator unless it is
already in `knowledge`, already in the accumulator, or has empty cells. -/
def deriveStep (k : List Sentence) (s1 s2 : Sentence) (acc : List Sentence) :
    List Sentence :=
  if s1 ≠ s2 ∧ s1.cells ≠ ∅ ∧ s2.cells ≠ ∅ ∧ s1.cells ⊆ s2.cells then
    if (⟨s2.cells \ s1.cells, s2.count - s1.count⟩ : Sentence) ∉ k ∧
       (⟨s2.cells \ s1.cells, s2.count - s1.count⟩ : Sentence) ∉ acc ∧
       s2.cells \ s1.cells ≠ ∅ then
      acc ++ [⟨s2.cells \ s1.cells, s2.count - s1.count⟩]
    else acc
  else acc

/-- The `new_sentences` list built by the nested subset-inference loops. -/
def newSentences (k : List Sentence) : List Sentence :=
  k.foldl (fun acc s1 => k.foldl (fun acc2 s2 => deriveStep k s1 s2 acc2) acc) []

/-- The safe cells newly discovered in one pass: the union of
`known_safes()` over the knowledge, minus the cells already in `safes`
(the source only calls `mark_safe` on those). -/
def passNewSafes (s : AIState) : Finset Cell :=
  foldUnion s.knowledge Sentence.known_safes \ s.safes

/-- The mine cells newly discovered in one pass. -/
def passNewMines (s : AIState) : Finset Cell :=
  foldUnion s.knowledge Sentence.known_mines \ s.mines

/-- The knowledge list after marking the new safes (first) and the new
mines (second) of a pass and then dropping sentences with empty cell sets
(`self.knowledge = [s for s in self.knowledge if len(s.cells) > 0]`). -/
def passKnowledge (s : AIState) : List Sentence :=
  ((s.knowledge.map (fun t => t.removeSafes (passNewSafes s))).map
      (fun t => t.removeMines (passNewMines s))).filter
    (fun t => decide (t.cells ≠ ∅))

/-- One iteration of the `while changed` loop of `add_knowledge`: collect
the known safes/mines, mark the new ones (all safes first, then all mines,
as in the source), drop sentences with empty cell sets, run subset
inference, and report whether anything changed. -/
def inferencePass (s : AIState) : AIState × Bool :=
  ({ s with safes := s.safes ∪ passNewSafes s,
            mines := s.mines ∪ passNewMines s,
            knowledge := passKnowledge s ++ newSentences (passKnowledge s) },
   decide (passNewSafes s ≠ ∅) || decide (passNewMines s ≠ ∅) ||
     decide (newSentences (passKnowledge s) ≠ []))

/-- The `while changed` loop, with fuel; `none` means the fuel ran out
before the loop stabilised. -/
def inferenceLoop : ℕ → AIState → Option AIState
  | 0, _ => none
  | n + 1, s =>
    let p := inferencePass s
    if p.2 then inferenceLoop n p.1 else some p.1

/-- `MinesweeperAI.add_knowledge`, with fuel for the inference loop. -/
def add_knowledge (fuel : ℕ) (s : AIState) (cell : Cell) (count : ℤ) :
    Option AIState :=
  inferenceLoop fuel (addKnowledgeInit s cell count)

/-- A concrete choice function standing for Python's arbitrary `set.pop()`:
pick the element with the least `Nat.pair` code. -/
def pickCell (s : Finset Cell) : Option Cell :=
  if h : (s.image fun p => Nat.pair p.1 p.2).Nonempty then
    some (Nat.unpair ((s.image fun p => Nat.pair p.1 p.2).min' h))
  else none

/-- `MinesweeperAI.make_safe_move`: pop an element of `safes - moves_made`
(or `None`); the state is returned unchanged, since the method only builds
a fresh difference set and pops from that copy. -/
def make_safe_move (s : AIState) : Option Cell × AIState :=
  (pickCell (s.safes \ s.moves_made), s)

/-- The fixpoint loop of `add_knowledge` runs forever from `s` on the given
observation: no amount of fuel makes it return. -/
def addKnowledgeDiverges (s : AIState) (cell : Cell) (count : ℤ) : Prop :=
  ∀ fuel, add_knowledge fuel s cell count = none

/-! ### Basic lemmas about the embedding -/

theorem mem_foldl_union (k : List Sentence) (f : Sentence → Finset Cell)
    (a : Finset Cell) (c : Cell) :
    c ∈ k.foldl (fun acc t => acc ∪ f t) a ↔ c ∈ a ∨ ∃ t ∈ k, c ∈ f t := by
  induction k generalizing a with
  | nil => simp
  | cons h tl ih =>
    simp only [List.foldl_cons, ih, Finset.mem_union, List.mem_cons]
    constructor
    · rintro ((hc | hc) | ⟨t, ht, hc⟩)
      · exact Or.inl hc
      · exact Or.inr ⟨h, Or.inl rfl, hc⟩
      · exact Or.inr ⟨t, Or.inr ht, hc⟩
    · rintro (hc | ⟨t, (rfl | ht), hc⟩)
      · exact Or.inl (Or.inl hc)
      · exact Or.inl (Or.inr hc)
      · exact Or.inr ⟨t, ht, hc⟩

theorem mem_foldUnion {k : List Sentence} {f : Sentence → Finset Cell} {c : Cell} :
    c ∈ foldUnion k f ↔ ∃ t ∈ k, c ∈ f t := by
  simpa using mem_foldl_union k f ∅ c

/-- The conditions under which the source's subset-inference step considers
the ordered pair `(s1, s2)`. -/
def pairCond (s1 s2 : Sentence) : Prop :=
  s1 ≠ s2 ∧ s1.cells ≠ ∅ ∧ s2.cells ≠ ∅ ∧ s1.cells ⊆ s2.cells

instance (s1 s2 : Sentence) : Decidable (pairCond s1 s2) := by
  unfold pairCond; infer_instance

/-- The difference sentence derived from the ordered pair `(s1, s2)`. -/
def diffSentence (s1 s2 : Sentence) : Sentence :=
  ⟨s2.cells \ s1.cells, s2.count - s1.count⟩

theorem deriveStep_eq (k : List Sentence) (s1 s2 : Sentence) (acc : List Sentence) :
    deriveStep k s1 s2 acc =
      if pairCond s1 s2 ∧ diffSentence s1 s2 ∉ k ∧ diffSentence s1 s2 ∉ acc ∧
          (diffSentence s1 s2).cells ≠ ∅ then
        acc ++ [diffSentence s1 s2]
      else acc := by
  unfold deriveStep pairCond diffSentence
  by_cases h1 : s1 ≠ s2 ∧ s1.cells ≠ ∅ ∧ s2.cells ≠ ∅ ∧ s1.cells ⊆ s2.cells
  · simp only [if_pos h1]
    by_cases h2 : (⟨s2.cells \ s1.cells, s2.count - s1.count⟩ : Sentence) ∉ k ∧
        (⟨s2.cells \ s1.cells, s2.count - s1.count⟩ : Sentence) ∉ acc ∧
        s2.cells \ s1.cells ≠ ∅
    · rw [if_pos h2, if_pos ⟨h1, h2⟩]
    · rw [if_neg h2, if_neg]
      rintro ⟨-, h⟩
      exact h2 h
  · rw [if_neg h1, if_neg]
    rintro ⟨h, -⟩
    exact h1 h

theorem mem_deriveStep {k : List Sentence} {s1 s2 d : Sentence} {acc : List Sentence} :
    d ∈ deriveStep k s1 s2 acc ↔ d ∈ acc ∨
      (pairCond s1 s2 ∧ d = diffSentence s1 s2 ∧ d ∉ k ∧ d ∉ acc ∧ d.cells ≠ ∅) := by
  rw [deriveStep_eq]
  split
  · rename_i h
    simp only [List.mem_append, List.mem_singleton]
    constructor
    · rintro (hd | rfl)
      · exact Or.inl hd
      · exact Or.inr ⟨h.1, rfl, h.2.1, h.2.2.1, h.2.2.2⟩
    · rintro (hd | ⟨-, rfl, -⟩)
      · exact Or.inl hd
      · exact Or.inr rfl
  · rename_i h
    constructor
    · exact Or.inl
    · rintro (hd | ⟨hc, rfl, hk, ha, hne⟩)
      · exact hd
      · exact absurd ⟨hc, hk, ha, hne⟩ h

/-- What it means for a sentence to be derivable by subset inference from
the (non-empty, distinct) pairs of a knowledge list. -/
def Derivable (k : List Sentence) (d : Sentence) : Prop :=
  ∃ s1 ∈ k, ∃ s2 ∈ k, pairCond s1 s2 ∧ d = diffSentence s1 s2

theorem mem_inner_fold {k : List Sentence} {s1 : Sentence} (l : List Sentence)
    (acc : List Sentence) (d : Sentence) :
    d ∈ l.foldl (fun acc2 s2 => deriveStep k s1 s2 acc2) acc ↔
      d ∈ acc ∨ ∃ s2 ∈ l,
        pairCond s1 s2 ∧ d = diffSentence s1 s2 ∧ d ∉ k ∧ d.cells ≠ ∅ := by
  induction l generalizing acc with
  | nil => simp
  | cons h tl ih =>
    simp only [List.foldl_cons, ih, mem_deriveStep, List.mem_cons]
    constructor
    · rintro ((hd | ⟨hc, rfl, hk, ha, hne⟩) | ⟨s2, hs2, hx⟩)
      · exact Or.inl hd
      · exact Or.inr ⟨h, Or.inl rfl, hc, rfl, hk, hne⟩
      · exact Or.inr ⟨s2, Or.inr hs2, hx⟩
    · rintro (hd | ⟨s2, (rfl | hs2), hc, rfl, hk, hne⟩)
      · exact Or.inl (Or.inl hd)
      · by_cases ha : diffSentence s1 s2 ∈ acc
        · exact Or.inl (Or.inl ha)
        · exact Or.inl (Or.inr ⟨hc, rfl, hk, ha, hne⟩)
      · exact Or.inr ⟨s2, hs2, hc, rfl, hk, hne⟩

theorem mem_outer_fold {k : List Sentence} (l : List Sentence)
    (acc : List Sentence) (d : Sentence) :
    d ∈ l.foldl (fun acc s1 => k.foldl (fun acc2 s2 => deriveStep k s1 s2 acc2) acc) acc ↔
      d ∈ acc ∨ ∃ s1 ∈ l, ∃ s2 ∈ k,
        pairCond s1 s2 ∧ d = diffSentence s1 s2 ∧ d ∉ k ∧ d.cells ≠ ∅ := by
  induction l generalizing acc with
  | nil => simp
  | cons h tl ih =>
    simp only [List.foldl_cons, ih, mem_inner_fold, List.mem_cons]
    constructor
    · rintro ((hd | ⟨s2, hs2, hx⟩) | ⟨s1, hs1, hrest⟩)
      · exact Or.inl hd
      · exact Or.inr ⟨h, Or.inl rfl, s2, hs2, hx⟩
      · exact Or.inr ⟨s1, Or.inr hs1, hrest⟩
    · rintro (hd | ⟨s1, (rfl | hs1), hrest⟩)
      · exact Or.inl (Or.inl hd)
      · exact Or.inl (Or.inr hrest)
      · exact Or.inr ⟨s1, hs1, hrest⟩

/-- Membership in the `new_sentences` list of a subset-inference pass: the
sentence is derivable from an ordered pair, has non-empty cells, and is not
already in the knowledge list. -/
theorem mem_newSentences {k : List Sentence} {d : Sentence} :
    d ∈ newSentences k ↔ Derivable k d ∧ d.cells ≠ ∅ ∧ d ∉ k := by
  unfold newSentences Derivable
  rw [mem_outer_fold]
  simp only [List.not_mem_nil, false_or]
  constructor
  · rintro ⟨s1, hs1, s2, hs2, hc, rfl, hk, hne⟩
    exact ⟨⟨s1, hs1, s2, hs2, hc, rfl⟩, hne, hk⟩
  · rintro ⟨⟨s1, hs1, s2, hs2, hc, rfl⟩, hne, hk⟩
    exact ⟨s1, hs1, s2, hs2, hc, rfl, hk, hne⟩

theorem newSentences_not_mem {k : List Sentence} {d : Sentence}
    (h : d ∈ newSentences k) : d ∉ k :=
  (mem_newSentences.mp h).2.2

theorem newSentences_cells_ne {k : List Sentence} {d : Sentence}
    (h : d ∈ newSentences k) : d.cells ≠ ∅ :=
  (mem_newSentences.mp h).2.1

theorem deriveStep_nodup {k : List Sentence} {s1 s2 : Sentence} {acc : List Sentence}
    (h : acc.Nodup) : (deriveStep k s1 s2 acc).Nodup := by
  rw [deriveStep_eq]
  split
  · rename_i hc
    refine List.Nodup.append h (List.nodup_singleton _) ?_
    intro a ha hb
    rw [List.mem_singleton] at hb
    subst hb
    exact hc.2.2.1 ha
  · exact h

theorem inner_fold_nodup {k : List Sentence} {s1 : Sentence} (l : List Sentence)
    {acc : List Sentence} (h : acc.Nodup) :
    (l.foldl (fun acc2 s2 => deriveStep k s1 s2 acc2) acc).Nodup := by
  induction l generalizing acc with
  | nil => exact h
  | cons hd tl ih => exact ih (deriveStep_nodup h)

/-- The `new_sentences` list of a pass never contains two equal sentences. -/
theorem newSentences_nodup (k : List Sentence) : (newSentences k).Nodup := by
  unfold newSentences
  have hgen : ∀ (l acc : List Sentence), acc.Nodup →
      (l.foldl (fun acc s1 =>
        k.foldl (fun acc2 s2 => deriveStep k s1 s2 acc2) acc) acc).Nodup := by
    intro l
    induction l with
    | nil => exact fun acc h => h
    | cons hd tl ih => exact fun acc h => ih _ (inner_fold_nodup k h)
  exact hgen k [] List.nodup_nil

theorem Sentence.removeSafes_empty (t : Sentence) : t.removeSafes ∅ = t := by
  unfold Sentence.removeSafes
  rw [Finset.sdiff_empty]

theorem Sentence.removeMines_empty (t : Sentence) : t.removeMines ∅ = t := by
  unfold Sentence.removeMines
  rw [Finset.sdiff_empty, Finset.inter_empty, Finset.card_empty]
  norm_num

theorem pass_changed_false_iff (s : AIState) :
    (inferencePass s).2 = false ↔
      passNewSafes s = ∅ ∧ passNewMines s = ∅ ∧
        newSentences (passKnowledge s) = [] := by
  simp only [inferencePass, Bool.or_eq_false_iff, decide_eq_false_iff_not, not_not,
    and_assoc]

theorem passKnowledge_of_no_marks {s : AIState} (hns : passNewSafes s = ∅)
    (hnm : passNewMines s = ∅) :
    passKnowledge s = s.knowledge.filter (fun t => decide (t.cells ≠ ∅)) := by
  unfold passKnowledge
  rw [hns, hnm]
  congr 1
  rw [List.map_map]
  have : ∀ t ∈ s.knowledge,
      ((fun t => Sentence.removeMines t ∅) ∘ fun t => Sentence.removeSafes t ∅) t = id t := by
    intro t _
    simp [Sentence.removeSafes_empty, Sentence.removeMines_empty]
  rw [List.map_congr_left this, List.map_id]

theorem pass_stable {s s' : AIState} (h : inferencePass s = (s', false)) :
    inferencePass s' = (s', false) := by
  have hflag : (inferencePass s).2 = false := by rw [h]
  obtain ⟨hns, hnm, hnews⟩ := (pass_changed_false_iff s).mp hflag
  have hfst : (inferencePass s).1 = s' := by rw [h]
  have hsafes : s'.safes = s.safes := by
    rw [← hfst]; show s.safes ∪ passNewSafes s = s.safes; rw [hns, Finset.union_empty]
  have hmines : s'.mines = s.mines := by
    rw [← hfst]; show s.mines ∪ passNewMines s = s.mines; rw [hnm, Finset.union_empty]
  have hknow : s'.knowledge = passKnowledge s := by
    rw [← hfst]; show passKnowledge s ++ newSentences (passKnowledge s) = passKnowledge s
    rw [hnews, List.append_nil]
  have hpk := passKnowledge_of_no_marks hns hnm
  have hns' : passNewSafes s' = ∅ := by
    unfold passNewSafes at hns ⊢
    rw [Finset.sdiff_eq_empty_iff_subset] at hns ⊢
    intro c hc
    rw [mem_foldUnion] at hc
    obtain ⟨t, ht, hct⟩ := hc
    rw [hknow, hpk, List.mem_filter] at ht
    rw [hsafes]
    exact hns (mem_foldUnion.mpr ⟨t, ht.1, hct⟩)
  have hnm' : passNewMines s' = ∅ := by
    unfold passNewMines at hnm ⊢
    rw [Finset.sdiff_eq_empty_iff_subset] at hnm ⊢
    intro c hc
    rw [mem_foldUnion] at hc
    obtain ⟨t, ht, hct⟩ := hc
    rw [hknow, hpk, List.mem_filter] at ht
    rw [hmines]
    exact hnm (mem_foldUnion.mpr ⟨t, ht.1, hct⟩)
  have hpk' : passKnowledge s' = s'.knowledge := by
    rw [passKnowledge_of_no_marks hns' hnm']
    apply List.filter_eq_self.mpr
    intro t ht
    rw [hknow, hpk, List.mem_filter] at ht
    exact ht.2
  have hnews' : newSentences (passKnowledge s') = [] := by
    rw [hpk', hknow]
    exact hnews
  unfold inferencePass
  rw [hns', hnm', hnews', hpk']
  simp

theorem inferenceLoop_fix {n : ℕ} {s s' : AIState} (h : inferenceLoop n s = some s') :
    inferencePass s' = (s', false) := by
  induction n generalizing s with
  | zero => simp [inferenceLoop] at h
  | succ n ih =>
    simp only [inferenceLoop] at h
    rcases hp : inferencePass s with ⟨s1, b⟩
    rw [hp] at h
    cases b with
    | true => exact ih (by simpa using h)
    | false =>
      simp only [if_neg (Bool.false_ne_true), Option.some.injEq] at h
      subst h
      exact pass_stable hp

theorem pass_safes_sub (s : AIState) : s.safes ⊆ (inferencePass s).1.safes :=
  Finset.subset_union_left

theorem pass_mines_sub (s : AIState) : s.mines ⊆ (inferencePass s).1.mines :=
  Finset.subset_union_left

theorem inferenceLoop_mono {n : ℕ} {s s' : AIState}
    (h : inferenceLoop n s = some s') :
    s.safes ⊆ s'.safes ∧ s.mines ⊆ s'.mines ∧ s'.moves_made = s.moves_made ∧
      s'.height = s.height ∧ s'.width = s.width := by
  induction n generalizing s with
  | zero => simp [inferenceLoop] at h
  | succ n ih =>
    simp only [inferenceLoop] at h
    rcases hp : inferencePass s with ⟨s1, b⟩
    rw [hp] at h
    have e1 : (inferencePass s).1 = s1 := by rw [hp]
    have hs : s.safes ⊆ s1.safes := e1 ▸ pass_safes_sub s
    have hm : s.mines ⊆ s1.mines := e1 ▸ pass_mines_sub s
    have hmo : s1.moves_made = s.moves_made := by rw [← e1]; rfl
    have hh : s1.height = s.height := by rw [← e1]; rfl
    have hw : s1.width = s.width := by rw [← e1]; rfl
    cases b with
    | true =>
      obtain ⟨i1, i2, i3, i4, i5⟩ := ih (by simpa using h)
      exact ⟨hs.trans i1, hm.trans i2, i3.trans hmo, i4.trans hh, i5.trans hw⟩
    | false =>
      simp only [if_neg (Bool.false_ne_true), Option.some.injEq] at h
      subst h
      exact ⟨hs, hm, hmo, hh, hw⟩

theorem addKnowledgeInit_safes (s : AIState) (cell : Cell) (count : ℤ) :
    (addKnowledgeInit s cell count).safes = insert cell s.safes := by
  unfold addKnowledgeInit AIState.mark_safe
  dsimp only
  split <;> (try split) <;> rfl

theorem addKnowledgeInit_mines (s : AIState) (cell : Cell) (count : ℤ) :
    (addKnowledgeInit s cell count).mines = s.mines := by
  unfold addKnowledgeInit AIState.mark_safe
  dsimp only
  split <;> (try split) <;> rfl

theorem addKnowledgeInit_moves (s : AIState) (cell : Cell) (count : ℤ) :
    (addKnowledgeInit s cell count).moves_made = insert cell s.moves_made := by
  unfold addKnowledgeInit AIState.mark_safe
  dsimp only
  split <;> (try split) <;> rfl

theorem addKnowledgeInit_height (s : AIState) (cell : Cell) (count : ℤ) :
    (addKnowledgeInit s cell count).height = s.height := by
  unfold addKnowledgeInit AIState.mark_safe
  dsimp only
  split <;> (try split) <;> rfl

theorem addKnowledgeInit_width (s : AIState) (cell : Cell) (count : ℤ) :
    (addKnowledgeInit s cell count).width = s.width := by
  unfold addKnowledgeInit AIState.mark_safe
  dsimp only
  split <;> (try split) <;> rfl

theorem add_knowledge_mono {fuel : ℕ} {s : AIState} {cell : Cell} {count : ℤ}
    {s' : AIState} (h : add_knowledge fuel s cell count = some s') :
    s.safes ⊆ s'.safes ∧ s.mines ⊆ s'.mines ∧ s.moves_made ⊆ s'.moves_made := by
  obtain ⟨h1, h2, h3, -, -⟩ := inferenceLoop_mono h
  rw [addKnowledgeInit_safes] at h1
  rw [addKnowledgeInit_mines] at h2
  rw [addKnowledgeInit_moves] at h3
  exact ⟨(Finset.subset_insert _ _).trans h1, h2,
    by rw [h3]; exact Finset.subset_insert _ _⟩

theorem pickCell_eq_none_iff {s : Finset Cell} : pickCell s = none ↔ s = ∅ := by
  unfold pickCell
  split
  · rename_i h
    rw [Finset.image_nonempty] at h
    simp only [reduceCtorEq, false_iff]
    exact fun he => by
      rw [he] at h
      exact Finset.not_nonempty_empty h
  · rename_i h
    rw [Finset.image_nonempty, Finset.nonempty_iff_ne_empty, not_not] at h
    simp [h]

theorem pickCell_mem {s : Finset Cell} {c : Cell} (h : pickCell s = some c) :
    c ∈ s := by
  unfold pickCell at h
  split at h
  · rename_i hne
    injection h with h
    subst h
    have hmin := Finset.min'_mem _ hne
    rw [Finset.mem_image] at hmin
    obtain ⟨p, hp, hpe⟩ := hmin
    rw [← hpe, Nat.unpair_pair]
    rwa [Prod.mk.eta]
  · exact absurd h (by simp)

/-! ### Claim theorems (first batch) -/

/-- C1 (counterexample): the state reached from a fresh 2×2 AI by
`mark_safe((0,0))` followed by `mark_mine((0,0))` has `(0,0)` in both
`safes` and `mines`, so the disjointness invariant fails for this reachable
state. -/
theorem c1_disjoint_counterexample :
    (0, 0) ∈ (((freshAI 2 2).mark_safe (0, 0)).mark_mine (0, 0)).safes ∧
    (0, 0) ∈ (((freshAI 2 2).mark_safe (0, 0)).mark_mine (0, 0)).mines := by
  constructor <;> decide

/-- C2 (counterexample): after `add_knowledge((0,0),1)` and
`add_knowledge((2,0),1)` on a fresh 3×3 AI, the calls `mark_safe((0,1))`
and `mark_safe((2,1))` mutate the two sentences in place into the equal
sentences `{(1,0),(1,1)}=1`, so two equal constraints coexist in
`knowledge`. -/
theorem c2_duplicates_counterexample :
    ((add_knowledge 10 (freshAI 3 3) (0, 0) 1).bind
        (fun s => add_knowledge 10 s (2, 0) 1)).map
      (fun s => ((s.mark_safe (0, 1)).mark_safe (2, 1)).knowledge) =
    some [⟨{(1, 0), (1, 1)}, 1⟩, ⟨{(1, 0), (1, 1)}, 1⟩] := by decide

/-- C5: whenever `add_knowledge` returns (the fixpoint loop stabilised),
one more full inference pass leaves `safes`, `mines` and `knowledge`
exactly as they were and reports no change. -/
theorem c5_fixpoint_idempotent {fuel : ℕ} {s : AIState} {cell : Cell}
    {count : ℤ} {s' : AIState} (h : add_knowledge fuel s cell count = some s') :
    inferencePass s' = (s', false) :=
  inferenceLoop_fix h

/-- C7: `known_mines` returns the cell set exactly when the count equals
the number of cells (the empty set when the cells are empty), otherwise the
empty set; `known_safes` returns the cell set exactly when the count is 0;
both are pure functions of the sentence (the embedding returns a new set
and leaves the sentence untouched). -/
theorem c7_known_queries (t : Sentence) :
    (t.known_mines = t.cells ∧ (t.cells.card : ℤ) = t.count ∨
      t.known_mines = ∅ ∧ (t.cells.card : ℤ) ≠ t.count) ∧
    (t.cells = ∅ → t.known_mines = ∅) ∧
    (t.known_safes = t.cells ∧ t.count = 0 ∨
      t.known_safes = ∅ ∧ t.count ≠ 0) ∧
    (t.cells = ∅ → t.known_safes = ∅) := by
  unfold Sentence.known_mines Sentence.known_safes
  refine ⟨?_, ?_, ?_, ?_⟩
  · by_cases h : (t.cells.card : ℤ) = t.count
    · exact Or.inl ⟨if_pos h, h⟩
    · exact Or.inr ⟨if_neg h, h⟩
  · intro h
    split <;> simp [h]
  · by_cases h : t.count = 0
    · exact Or.inl ⟨if_pos h, h⟩
    · exact Or.inr ⟨if_neg h, h⟩
  · intro h
    split <;> simp [h]

/-- C8: `make_safe_move` returns `none` exactly when `safes - moves_made`
is empty, otherwise some member of that set, and leaves the whole state
(in particular `safes`, `mines`, `moves_made`, `knowledge`) unchanged. -/
theorem c8_make_safe_move (s : AIState) :
    (make_safe_move s).2 = s ∧
    ((make_safe_move s).1 = none ↔ s.safes \ s.moves_made = ∅) ∧
    ∀ c : Cell, (make_safe_move s).1 = some c → c ∈ s.safes \ s.moves_made :=
  ⟨rfl, pickCell_eq_none_iff, fun _ h => pickCell_mem h⟩

/-- C8 witness: on a concrete state with `safes = {(0,1)}` and no moves,
the returned move is a member of `safes - moves_made`. -/
theorem c8_make_safe_move_witness :
    ((make_safe_move ⟨1, 2, ∅, ∅, {(0, 1)}, []⟩).1 = none ↔
      ((⟨1, 2, ∅, ∅, {(0, 1)}, []⟩ : AIState).safes \ ∅ = ∅)) ∧
    (0, 1) ∈ (⟨1, 2, ∅, ∅, {(0, 1)}, []⟩ : AIState).safes \
      (⟨1, 2, ∅, ∅, {(0, 1)}, []⟩ : AIState).moves_made :=
  ⟨(c8_make_safe_move ⟨1, 2, ∅, ∅, {(0, 1)}, []⟩).2.1,
   (c8_make_safe_move ⟨1, 2, ∅, ∅, {(0, 1)}, []⟩).2.2 (0, 1) (by decide)⟩

/-- C9: `safes`, `mines` and `moves_made` only grow: across `mark_safe`,
`mark_mine` and every returning `add_knowledge` call each of the three sets
contains its old value, and `make_safe_move` leaves the state unchanged. -/
theorem c9_monotone (s : AIState) (c : Cell) :
    (s.safes ⊆ (s.mark_safe c).safes ∧ s.mines ⊆ (s.mark_safe c).mines ∧
      s.moves_made ⊆ (s.mark_safe c).moves_made) ∧
    (s.safes ⊆ (s.mark_mine c).safes ∧ s.mines ⊆ (s.mark_mine c).mines ∧
      s.moves_made ⊆ (s.mark_mine c).moves_made) ∧
    (∀ (fuel : ℕ) (count : ℤ) (s' : AIState),
      add_knowledge fuel s c count = some s' →
      s.safes ⊆ s'.safes ∧ s.mines ⊆ s'.mines ∧ s.moves_made ⊆ s'.moves_made) ∧
    (make_safe_move s).2 = s := by
  refine ⟨⟨Finset.subset_insert _ _, subset_rfl, subset_rfl⟩,
    ⟨subset_rfl, Finset.subset_insert _ _, subset_rfl⟩,
    fun fuel count s' h => add_knowledge_mono h, rfl⟩

/-- C5 witness: a concrete returning call (`add_knowledge((0,0),0)` on a
fresh 2×2 AI) whose result state is left fixed by one more pass. -/
theorem c5_fixpoint_idempotent_witness :
    inferencePass (⟨2, 2, {(0, 0)}, ∅, {(0, 0), (0, 1), (1, 0), (1, 1)}, []⟩ : AIState) =
      ((⟨2, 2, {(0, 0)}, ∅, {(0, 0), (0, 1), (1, 0), (1, 1)}, []⟩ : AIState), false) :=
  @c5_fixpoint_idempotent 5 (freshAI 2 2) (0, 0) 0
    ⟨2, 2, {(0, 0)}, ∅, {(0, 0), (0, 1), (1, 0), (1, 1)}, []⟩ (by decide)

/-- C9 witness: the monotonicity conclusion instantiated on the concrete
returning call `add_knowledge((0,0),0)` from a fresh 2×2 AI. -/
theorem c9_monotone_witness :
    (freshAI 2 2).safes ⊆
        (⟨2, 2, {(0, 0)}, ∅, {(0, 0), (0, 1), (1, 0), (1, 1)}, []⟩ : AIState).safes ∧
      (freshAI 2 2).mines ⊆
        (⟨2, 2, {(0, 0)}, ∅, {(0, 0), (0, 1), (1, 0), (1, 1)}, []⟩ : AIState).mines ∧
      (freshAI 2 2).moves_made ⊆
        (⟨2, 2, {(0, 0)}, ∅, {(0, 0), (0, 1), (1, 0), (1, 1)}, []⟩ : AIState).moves_made :=
  (c9_monotone (freshAI 2 2) (0, 0)).2.2.1 5 0
    ⟨2, 2, {(0, 0)}, ∅, {(0, 0), (0, 1), (1, 0), (1, 1)}, []⟩ (by decide)

/-- C4: membership in the `new_sentences` list of a pass is exactly
derivability from an ordered pair of distinct non-empty constraints with
`s1.cells ⊆ s2.cells`, a non-empty difference, and novelty with respect to
the prior knowledge (within-pass duplicates are also never added: the list
has no duplicates); and concretely, from `{(0,0),(0,1),(0,2)}=1` and
`{(0,0),(0,1)}=1` the pass derives `{(0,2)}=0` and the fixpoint loop puts
`(0,2)` into `safes`. -/
theorem c4_subset_inference :
    (∀ (k : List Sentence) (d : Sentence),
      d ∈ newSentences k ↔ Derivable k d ∧ d.cells ≠ ∅ ∧ d ∉ k) ∧
    (∀ k : List Sentence, (newSentences k).Nodup) ∧
    (⟨{(0, 2)}, 0⟩ : Sentence) ∈
      newSentences [⟨{(0, 0), (0, 1), (0, 2)}, 1⟩, ⟨{(0, 0), (0, 1)}, 1⟩] ∧
    (inferenceLoop 10
        (⟨3, 3, ∅, ∅, ∅,
          [⟨{(0, 0), (0, 1), (0, 2)}, 1⟩, ⟨{(0, 0), (0, 1)}, 1⟩]⟩ : AIState)).map
      AIState.safes = some {(0, 2)} :=
  ⟨fun _ _ => mem_newSentences, newSentences_nodup, by decide, by decide⟩

theorem mem_neighbors {h w : ℕ} {c p : Cell} :
    p ∈ neighbors h w c ↔
      p.1 < h ∧ p.2 < w ∧ p ≠ c ∧ Nat.dist p.1 c.1 ≤ 1 ∧ Nat.dist p.2 c.2 ≤ 1 := by
  unfold neighbors
  rw [Finset.mem_filter, Finset.mem_product, Finset.mem_Ico, Finset.mem_Ico]
  simp only [Nat.dist, lt_min_iff]
  constructor
  · rintro ⟨⟨⟨a1, a2, a3⟩, b1, b2, b3⟩, hne⟩
    exact ⟨a2, b2, hne, by omega, by omega⟩
  · rintro ⟨h1, h2, hne, d1, d2⟩
    exact ⟨⟨⟨by omega, by omega, by omega⟩, by omega, by omega, by omega⟩, hne⟩

theorem addKnowledgeInit_knowledge (s : AIState) (cell : Cell) (count : ℤ) :
    (addKnowledgeInit s cell count).knowledge =
      if (neighbors s.height s.width cell \ insert cell s.safes) \ s.mines ≠ ∅ ∧
          (⟨(neighbors s.height s.width cell \ insert cell s.safes) \ s.mines,
            count - ((neighbors s.height s.width cell ∩ s.mines).card : ℤ)⟩ : Sentence) ∉
            (s.mark_safe cell).knowledge then
        (s.mark_safe cell).knowledge ++
          [⟨(neighbors s.height s.width cell \ insert cell s.safes) \ s.mines,
            count - ((neighbors s.height s.width cell ∩ s.mines).card : ℤ)⟩]
      else (s.mark_safe cell).knowledge := by
  unfold addKnowledgeInit
  dsimp only
  split
  · rename_i hA
    split
    · rename_i hB
      exact (if_pos ⟨hA, hB⟩).symm
    · rename_i hB
      exact (if_neg (fun hc => hB hc.2)).symm
  · rename_i hA
    exact (if_neg (fun hc => hA hc.1)).symm

/-- C6: before the inference loop of `add_knowledge`, the neighbourhood is
exactly the in-grid cells at Chebyshev distance 1 from `cell` (excluding
`cell` itself), and the new sentence — appended only when the undetermined
set (neighbourhood minus known safes, which at that point include `cell`,
minus known mines) is non-empty and no equal sentence is present — has
exactly that undetermined cell set and the reported count minus the number
of neighbours already known to be mines. -/
theorem c6_init_sentence :
    (∀ (h w : ℕ) (c p : Cell),
      p ∈ neighbors h w c ↔
        p.1 < h ∧ p.2 < w ∧ p ≠ c ∧ Nat.dist p.1 c.1 ≤ 1 ∧ Nat.dist p.2 c.2 ≤ 1) ∧
    ∀ (s : AIState) (cell : Cell) (count : ℤ),
      (addKnowledgeInit s cell count).knowledge =
        if (neighbors s.height s.width cell \ insert cell s.safes) \ s.mines ≠ ∅ ∧
            (⟨(neighbors s.height s.width cell \ insert cell s.safes) \ s.mines,
              count - ((neighbors s.height s.width cell ∩ s.mines).card : ℤ)⟩ : Sentence) ∉
              (s.mark_safe cell).knowledge then
          (s.mark_safe cell).knowledge ++
            [⟨(neighbors s.height s.width cell \ insert cell s.safes) \ s.mines,
              count - ((neighbors s.height s.width cell ∩ s.mines).card : ℤ)⟩]
        else (s.mark_safe cell).knowledge :=
  ⟨fun _ _ _ _ => mem_neighbors, addKnowledgeInit_knowledge⟩

/-- C7 witness: for a concrete sentence with empty cells and non-zero
count, both queries return the empty set. -/
theorem c7_known_queries_witness :
    Sentence.known_mines ⟨∅, 5⟩ = ∅ ∧ Sentence.known_safes ⟨∅, 5⟩ = ∅ :=
  ⟨(c7_known_queries ⟨∅, 5⟩).2.1 rfl, (c7_known_queries ⟨∅, 5⟩).2.2.2 rfl⟩

/-! ### The structural invariant: sentences never mention decided cells -/

/-- No sentence in the knowledge base mentions a cell already in
`safes ∪ mines`. -/
def StructInv (s : AIState) : Prop :=
  ∀ t ∈ s.knowledge, t.cells ∩ (s.safes ∪ s.mines) = ∅

theorem Sentence.mark_safe_cells (t : Sentence) (c : Cell) :
    (t.mark_safe c).cells = t.cells.erase c := by
  unfold Sentence.mark_safe
  split
  · rfl
  · rename_i h
    exact (Finset.erase_eq_of_not_mem h).symm

theorem Sentence.mark_mine_cells (t : Sentence) (c : Cell) :
    (t.mark_mine c).cells = t.cells.erase c := by
  unfold Sentence.mark_mine
  split
  · rfl
  · rename_i h
    exact (Finset.erase_eq_of_not_mem h).symm

theorem structInv_mark_safe {s : AIState} (h : StructInv s) (c : Cell) :
    StructInv (s.mark_safe c) := by
  intro t ht
  obtain ⟨u, hu, rfl⟩ := List.mem_map.mp ht
  rw [Sentence.mark_safe_cells, Finset.eq_empty_iff_forall_not_mem]
  intro x hx
  rw [Finset.mem_inter, Finset.mem_erase] at hx
  obtain ⟨⟨hxc, hxu⟩, hxm⟩ := hx
  rw [Finset.mem_union] at hxm
  have hxm' : x ∈ s.safes ∪ s.mines := by
    rcases hxm with hxm | hxm
    · have hxm2 : x ∈ insert c s.safes := hxm
      rw [Finset.mem_insert] at hxm2
      rcases hxm2 with rfl | hxm2
      · exact absurd rfl hxc
      · exact Finset.mem_union_left _ hxm2
    · exact Finset.mem_union_right _ hxm
  have := h u hu
  rw [Finset.eq_empty_iff_forall_not_mem] at this
  exact this x (Finset.mem_inter.mpr ⟨hxu, hxm'⟩)

theorem structInv_mark_mine {s : AIState} (h : StructInv s) (c : Cell) :
    StructInv (s.mark_mine c) := by
  intro t ht
  obtain ⟨u, hu, rfl⟩ := List.mem_map.mp ht
  rw [Sentence.mark_mine_cells, Finset.eq_empty_iff_forall_not_mem]
  intro x hx
  rw [Finset.mem_inter, Finset.mem_erase] at hx
  obtain ⟨⟨hxc, hxu⟩, hxm⟩ := hx
  rw [Finset.mem_union] at hxm
  have hxm' : x ∈ s.safes ∪ s.mines := by
    rcases hxm with hxm | hxm
    · exact Finset.mem_union_left _ hxm
    · have hxm2 : x ∈ insert c s.mines := hxm
      rw [Finset.mem_insert] at hxm2
      rcases hxm2 with rfl | hxm2
      · exact absurd rfl hxc
      · exact Finset.mem_union_right _ hxm2
  have := h u hu
  rw [Finset.eq_empty_iff_forall_not_mem] at this
  exact this x (Finset.mem_inter.mpr ⟨hxu, hxm'⟩)

theorem structInv_init {s : AIState} (h : StructInv s) (cell : Cell) (count : ℤ) :
    StructInv (addKnowledgeInit s cell count) := by
  have hms : StructInv (s.mark_safe cell) := structInv_mark_safe h cell
  intro t ht
  rw [addKnowledgeInit_knowledge] at ht
  have hgoal : t.cells ∩ (insert cell s.safes ∪ s.mines) = ∅ →
      t.cells ∩ ((addKnowledgeInit s cell count).safes ∪
        (addKnowledgeInit s cell count).mines) = ∅ := by
    rw [addKnowledgeInit_safes, addKnowledgeInit_mines]
    exact id
  apply hgoal
  split at ht
  · rw [List.mem_append, List.mem_singleton] at ht
    rcases ht with ht | rfl
    · exact hms t ht
    · rw [Finset.eq_empty_iff_forall_not_mem]
      intro x hx
      rw [Finset.mem_inter] at hx
      obtain ⟨hx1, hx2⟩ := hx
      have hx1' : x ∈ (neighbors s.height s.width cell \ insert cell s.safes) \
          s.mines := hx1
      rw [Finset.mem_sdiff, Finset.mem_sdiff] at hx1'
      obtain ⟨⟨-, hxs⟩, hxm⟩ := hx1'
      rw [Finset.mem_union] at hx2
      rcases hx2 with hx2 | hx2
      · exact hxs hx2
      · exact hxm hx2
  · exact hms t ht

theorem structInv_pass {s : AIState} (h : StructInv s) :
    StructInv (inferencePass s).1 := by
  have hpk : ∀ t ∈ passKnowledge s,
      t.cells ∩ ((s.safes ∪ passNewSafes s) ∪ (s.mines ∪ passNewMines s)) = ∅ := by
    intro t ht
    unfold passKnowledge at ht
    rw [List.mem_filter] at ht
    obtain ⟨ht, -⟩ := ht
    rw [List.mem_map] at ht
    obtain ⟨u1, hu1, rfl⟩ := ht
    rw [List.mem_map] at hu1
    obtain ⟨u, hu, rfl⟩ := hu1
    rw [Finset.eq_empty_iff_forall_not_mem]
    intro x hx
    rw [Finset.mem_inter] at hx
    obtain ⟨hx1, hx2⟩ := hx
    have hx1' : x ∈ (u.cells \ passNewSafes s) \ passNewMines s := hx1
    rw [Finset.mem_sdiff, Finset.mem_sdiff] at hx1'
    obtain ⟨⟨hxu, hxns⟩, hxnm⟩ := hx1'
    have hinv := h u hu
    rw [Finset.eq_empty_iff_forall_not_mem] at hinv
    rw [Finset.mem_union, Finset.mem_union, Finset.mem_union] at hx2
    rcases hx2 with (hx2 | hx2) | (hx2 | hx2)
    · exact hinv x (Finset.mem_inter.mpr ⟨hxu, Finset.mem_union_left _ hx2⟩)
    · exact hxns hx2
    · exact hinv x (Finset.mem_inter.mpr ⟨hxu, Finset.mem_union_right _ hx2⟩)
    · exact hxnm hx2
  intro t ht
  have ht' : t ∈ passKnowledge s ++ newSentences (passKnowledge s) := ht
  rw [List.mem_append] at ht'
  rcases ht' with ht' | ht'
  · exact hpk t ht'
  · obtain ⟨⟨s1, hs1, s2, hs2, hc, rfl⟩, hne, hnk⟩ := mem_newSentences.mp ht'
    have h2 := hpk s2 hs2
    rw [Finset.eq_empty_iff_forall_not_mem] at h2 ⊢
    intro x hx
    rw [Finset.mem_inter] at hx
    obtain ⟨hx1, hx2⟩ := hx
    have hx1' : x ∈ s2.cells \ s1.cells := hx1
    exact h2 x (Finset.mem_inter.mpr ⟨(Finset.mem_sdiff.mp hx1').1, hx2⟩)

theorem structInv_loop {n : ℕ} {s s' : AIState} (h : inferenceLoop n s = some s')
    (hinv : StructInv s) : StructInv s' := by
  induction n generalizing s with
  | zero => simp [inferenceLoop] at h
  | succ n ih =>
    simp only [inferenceLoop] at h
    rcases hp : inferencePass s with ⟨s1, b⟩
    rw [hp] at h
    have hs1 : StructInv s1 := by
      have e1 : (inferencePass s).1 = s1 := by rw [hp]
      rw [← e1]
      exact structInv_pass hinv
    cases b with
    | true => exact ih (by simpa using h) hs1
    | false =>
      simp only [if_neg (Bool.false_ne_true), Option.some.injEq] at h
      subst h
      exact hs1

/-- The states of the embedded `MinesweeperAI` that the program can reach:
a fresh instance followed by any sequence of `mark_safe`, `mark_mine` and
returning `add_knowledge` calls. -/
inductive Reachable : AIState → Prop
  | fresh (h w : ℕ) : Reachable (freshAI h w)
  | safeStep {s : AIState} (c : Cell) : Reachable s → Reachable (s.mark_safe c)
  | mineStep {s : AIState} (c : Cell) : Reachable s → Reachable (s.mark_mine c)
  | addStep {s s' : AIState} (fuel : ℕ) (c : Cell) (n : ℤ) :
      Reachable s → add_knowledge fuel s c n = some s' → Reachable s'

theorem reachable_structInv {s : AIState} (h : Reachable s) : StructInv s := by
  induction h with
  | fresh h w => intro t ht; simp [freshAI] at ht
  | safeStep c _ ih => exact structInv_mark_safe ih c
  | mineStep c _ ih => exact structInv_mark_mine ih c
  | addStep fuel c n _ hadd ih => exact structInv_loop hadd (structInv_init ih c n)

/-- C10: whenever `add_knowledge` returns from a reachable state, every
sentence left in the knowledge base is fully digested: its cell set is
non-empty and disjoint from `safes ∪ mines`, and its count is neither 0 nor
the size of its cell set (so no remaining sentence immediately yields known
safes or known mines). -/
theorem c10_fully_digested {fuel : ℕ} {s : AIState} {cell : Cell} {count : ℤ}
    {s' : AIState} (hr : Reachable s)
    (h : add_knowledge fuel s cell count = some s') :
    ∀ t ∈ s'.knowledge, t.cells ≠ ∅ ∧ t.cells ∩ (s'.safes ∪ s'.mines) = ∅ ∧
      t.count ≠ 0 ∧ (t.cells.card : ℤ) ≠ t.count := by
  have hinv' : StructInv s' :=
    reachable_structInv (Reachable.addStep fuel cell count hr h)
  have hfix := inferenceLoop_fix h
  have hflag : (inferencePass s').2 = false := by rw [hfix]
  obtain ⟨hns, hnm, hnews⟩ := (pass_changed_false_iff s').mp hflag
  have hk : s'.knowledge = passKnowledge s' := by
    have h1 : (inferencePass s').1.knowledge = s'.knowledge := by rw [hfix]
    rw [← h1]
    show passKnowledge s' ++ newSentences (passKnowledge s') = passKnowledge s'
    rw [hnews, List.append_nil]
  intro t ht
  have htpk : t ∈ passKnowledge s' := by rw [← hk]; exact ht
  have hne : t.cells ≠ ∅ := by
    unfold passKnowledge at htpk
    rw [List.mem_filter] at htpk
    simpa using htpk.2
  have hdis := hinv' t ht
  refine ⟨hne, hdis, ?_, ?_⟩
  · intro h0
    obtain ⟨x, hx⟩ := Finset.nonempty_iff_ne_empty.mpr hne
    have hxs : x ∈ foldUnion s'.knowledge Sentence.known_safes :=
      mem_foldUnion.mpr ⟨t, ht, by
        unfold Sentence.known_safes
        rw [if_pos h0]
        exact hx⟩
    have hxsafe : x ∈ s'.safes := by
      unfold passNewSafes at hns
      rw [Finset.sdiff_eq_empty_iff_subset] at hns
      exact hns hxs
    rw [Finset.eq_empty_iff_forall_not_mem] at hdis
    exact hdis x (Finset.mem_inter.mpr ⟨hx, Finset.mem_union_left _ hxsafe⟩)
  · intro h0
    obtain ⟨x, hx⟩ := Finset.nonempty_iff_ne_empty.mpr hne
    have hxs : x ∈ foldUnion s'.knowledge Sentence.known_mines :=
      mem_foldUnion.mpr ⟨t, ht, by
        unfold Sentence.known_mines
        rw [if_pos h0]
        exact hx⟩
    have hxmine : x ∈ s'.mines := by
      unfold passNewMines at hnm
      rw [Finset.sdiff_eq_empty_iff_subset] at hnm
      exact hnm hxs
    rw [Finset.eq_empty_iff_forall_not_mem] at hdis
    exact hdis x (Finset.mem_inter.mpr ⟨hx, Finset.mem_union_right _ hxmine⟩)

/-- C10 witness: the concrete call `add_knowledge((0,0),1)` on a fresh 3×3
AI leaves exactly the sentence `{(0,1),(1,0),(1,1)}=1`, which is fully
digested. -/
theorem c10_fully_digested_witness :
    (⟨{(0, 1), (1, 0), (1, 1)}, 1⟩ : Sentence).cells ≠ ∅ ∧
    (⟨{(0, 1), (1, 0), (1, 1)}, 1⟩ : Sentence).cells ∩
      ((⟨3, 3, {(0, 0)}, ∅, {(0, 0)},
          [⟨{(0, 1), (1, 0), (1, 1)}, 1⟩]⟩ : AIState).safes ∪
        (⟨3, 3, {(0, 0)}, ∅, {(0, 0)},
          [⟨{(0, 1), (1, 0), (1, 1)}, 1⟩]⟩ : AIState).mines) = ∅ ∧
    (⟨{(0, 1), (1, 0), (1, 1)}, 1⟩ : Sentence).count ≠ 0 ∧
    (((⟨{(0, 1), (1, 0), (1, 1)}, 1⟩ : Sentence).cells.card : ℤ) ≠
      (⟨{(0, 1), (1, 0), (1, 1)}, 1⟩ : Sentence).count) :=
  @c10_fully_digested 10 (freshAI 3 3) (0, 0) 1
    ⟨3, 3, {(0, 0)}, ∅, {(0, 0)}, [⟨{(0, 1), (1, 0), (1, 1)}, 1⟩]⟩
    (Reachable.fresh 3 3) (by decide) ⟨{(0, 1), (1, 0), (1, 1)}, 1⟩
    (by simp)

/-- C2 (amended theorem): duplicates are never created at insertion time —
the `new_sentences` of a pass are pairwise distinct and distinct from all
sentences of the knowledge list, and the observation sentence of
`add_knowledge` is appended only when no equal sentence is present. -/
theorem c2_insertion_dedup :
    (∀ k : List Sentence, (newSentences k).Nodup ∧
      ∀ d ∈ newSentences k, d ∉ k) ∧
    ∀ (s : AIState) (cell : Cell) (count : ℤ),
      (⟨(neighbors s.height s.width cell \ insert cell s.safes) \ s.mines,
        count - ((neighbors s.height s.width cell ∩ s.mines).card : ℤ)⟩ : Sentence) ∈
        (s.mark_safe cell).knowledge →
      (addKnowledgeInit s cell count).knowledge = (s.mark_safe cell).knowledge := by
  refine ⟨fun k => ⟨newSentences_nodup k, fun d hd => newSentences_not_mem hd⟩, ?_⟩
  intro s cell count hmem
  rw [addKnowledgeInit_knowledge, if_neg]
  rintro ⟨-, hnot⟩
  exact hnot hmem

/-- C2 witness: a concrete pass-derived sentence is new, and a concrete
call whose observation sentence already exists appends nothing. -/
theorem c2_insertion_dedup_witness :
    (⟨{(0, 1)}, 5⟩ : Sentence) ∉
      [(⟨{(0, 0)}, 5⟩ : Sentence), ⟨{(0, 0), (0, 1)}, 10⟩] ∧
    (addKnowledgeInit ⟨3, 3, ∅, ∅, ∅, [⟨{(0, 1), (1, 0), (1, 1)}, 1⟩]⟩
        (0, 0) 1).knowledge =
      ((⟨3, 3, ∅, ∅, ∅, [⟨{(0, 1), (1, 0), (1, 1)}, 1⟩]⟩ : AIState).mark_safe
        (0, 0)).knowledge :=
  ⟨(c2_insertion_dedup.1 [⟨{(0, 0)}, 5⟩, ⟨{(0, 0), (0, 1)}, 10⟩]).2
      ⟨{(0, 1)}, 5⟩ (by decide),
   c2_insertion_dedup.2 ⟨3, 3, ∅, ∅, ∅, [⟨{(0, 1), (1, 0), (1, 1)}, 1⟩]⟩
      (0, 0) 1 (by decide)⟩

/-! ### Soundness under a ground-truth mine assignment -/

/-- The number of mines, under assignment `M`, among a set of cells. -/
def mineCount (M : Cell → Bool) (cs : Finset Cell) : ℤ :=
  ((cs.filter fun c => M c).card : ℤ)

/-- A state is truthful for a mine assignment `M` when `safes` holds only
non-mines, `mines` holds only mines, and every sentence counts exactly the
mines among its cells. -/
def Truthful (M : Cell → Bool) (s : AIState) : Prop :=
  (∀ c ∈ s.safes, M c = false) ∧ (∀ c ∈ s.mines, M c = true) ∧
    ∀ t ∈ s.knowledge, t.count = mineCount M t.cells

theorem mineCount_sdiff_safes {M : Cell → Bool} {cs ns : Finset Cell}
    (h : ∀ c ∈ ns, M c = false) : mineCount M (cs \ ns) = mineCount M cs := by
  unfold mineCount
  congr 2
  ext c
  simp only [Finset.mem_filter, Finset.mem_sdiff]
  constructor
  · rintro ⟨⟨h1, -⟩, h3⟩
    exact ⟨h1, h3⟩
  · rintro ⟨h1, h3⟩
    refine ⟨⟨h1, fun hc => ?_⟩, h3⟩
    rw [h c hc] at h3
    exact Bool.false_ne_true h3

theorem mineCount_sdiff_mines {M : Cell → Bool} {cs nm : Finset Cell}
    (h : ∀ c ∈ nm, M c = true) :
    mineCount M (cs \ nm) = mineCount M cs - ((cs ∩ nm).card : ℤ) := by
  unfold mineCount
  have h1 : (cs \ nm).filter (fun c => M c) = cs.filter (fun c => M c) \ nm := by
    ext c
    simp only [Finset.mem_filter, Finset.mem_sdiff]
    tauto
  have h2 : cs ∩ nm = (cs.filter fun c => M c) ∩ nm := by
    ext c
    simp only [Finset.mem_inter, Finset.mem_filter]
    constructor
    · rintro ⟨ha, hb⟩
      exact ⟨⟨ha, h c hb⟩, hb⟩
    · rintro ⟨⟨ha, -⟩, hb⟩
      exact ⟨ha, hb⟩
  rw [h1, h2]
  have h3 := Finset.card_sdiff_add_card_inter (cs.filter fun c => M c) nm
  omega

theorem mineCount_sdiff_subset {M : Cell → Bool} {a b : Finset Cell}
    (h : b ⊆ a) : mineCount M (a \ b) = mineCount M a - mineCount M b := by
  unfold mineCount
  have h1 : (a \ b).filter (fun c => M c) =
      a.filter (fun c => M c) \ b.filter (fun c => M c) := by
    ext c
    simp only [Finset.mem_filter, Finset.mem_sdiff]
    tauto
  have h2 : b.filter (fun c => M c) ⊆ a.filter (fun c => M c) :=
    Finset.filter_subset_filter _ h
  rw [h1]
  have h3 := Finset.card_sdiff h2
  have h4 := Finset.card_le_card h2
  omega

theorem known_safes_sound {M : Cell → Bool} {t : Sentence}
    (ht : t.count = mineCount M t.cells) {c : Cell}
    (hc : c ∈ t.known_safes) : M c = false := by
  unfold Sentence.known_safes at hc
  split at hc
  · rename_i h0
    rw [h0] at ht
    unfold mineCount at ht
    have hemp : t.cells.filter (fun c => M c) = ∅ :=
      Finset.card_eq_zero.mp (by exact_mod_cast ht.symm)
    by_contra hMc
    rw [Bool.not_eq_false] at hMc
    have hmem : c ∈ t.cells.filter (fun c => M c) :=
      Finset.mem_filter.mpr ⟨hc, hMc⟩
    rw [hemp] at hmem
    exact absurd hmem (Finset.not_mem_empty c)
  · exact absurd hc (Finset.not_mem_empty c)

theorem known_mines_sound {M : Cell → Bool} {t : Sentence}
    (ht : t.count = mineCount M t.cells) {c : Cell}
    (hc : c ∈ t.known_mines) : M c = true := by
  unfold Sentence.known_mines at hc
  split at hc
  · rename_i hcard
    rw [ht] at hcard
    unfold mineCount at hcard
    have hcards : (t.cells.filter fun c => M c).card = t.cells.card := by
      exact_mod_cast hcard.symm
    have heq : t.cells.filter (fun c => M c) = t.cells :=
      Finset.eq_of_subset_of_card_le (Finset.filter_subset _ _)
        (le_of_eq hcards.symm)
    rw [← heq] at hc
    exact (Finset.mem_filter.mp hc).2
  · exact absurd hc (Finset.not_mem_empty c)

theorem truthful_mark_safe {M : Cell → Bool} {s : AIState} (h : Truthful M s)
    {c : Cell} (hc : M c = false) : Truthful M (s.mark_safe c) := by
  obtain ⟨h1, h2, h3⟩ := h
  refine ⟨?_, h2, ?_⟩
  · intro x hx
    have hx' : x ∈ insert c s.safes := hx
    rw [Finset.mem_insert] at hx'
    rcases hx' with rfl | hx'
    · exact hc
    · exact h1 x hx'
  · intro t ht
    obtain ⟨u, hu, rfl⟩ := List.mem_map.mp ht
    have hcnt : (u.mark_safe c).count = u.count := by
      unfold Sentence.mark_safe
      split <;> rfl
    rw [Sentence.mark_safe_cells, hcnt, h3 u hu, Finset.erase_eq,
      mineCount_sdiff_safes]
    intro x hx
    rw [Finset.mem_singleton] at hx
    subst hx
    exact hc

theorem truthful_mark_mine {M : Cell → Bool} {s : AIState} (h : Truthful M s)
    {c : Cell} (hc : M c = true) : Truthful M (s.mark_mine c) := by
  obtain ⟨h1, h2, h3⟩ := h
  refine ⟨h1, ?_, ?_⟩
  · intro x hx
    have hx' : x ∈ insert c s.mines := hx
    rw [Finset.mem_insert] at hx'
    rcases hx' with rfl | hx'
    · exact hc
    · exact h2 x hx'
  · intro t ht
    obtain ⟨u, hu, rfl⟩ := List.mem_map.mp ht
    unfold Sentence.mark_mine
    by_cases hmem : c ∈ u.cells
    · rw [if_pos hmem]
      show u.count - 1 = mineCount M (u.cells.erase c)
      rw [Finset.erase_eq, mineCount_sdiff_mines, Finset.inter_singleton_of_mem hmem,
        Finset.card_singleton, h3 u hu]
      · norm_num
      · intro x hx
        rw [Finset.mem_singleton] at hx
        subst hx
        exact hc
    · rw [if_neg hmem]
      exact h3 u hu

theorem truthful_init {M : Cell → Bool} {s : AIState} (h : Truthful M s)
    {cell : Cell} {count : ℤ} (hc : M cell = false)
    (hcount : count = mineCount M (neighbors s.height s.width cell)) :
    Truthful M (addKnowledgeInit s cell count) := by
  obtain ⟨h1, h2, h3⟩ := truthful_mark_safe h hc
  refine ⟨?_, ?_, ?_⟩
  · intro x hx
    rw [addKnowledgeInit_safes] at hx
    exact h1 x hx
  · intro x hx
    rw [addKnowledgeInit_mines] at hx
    exact h2 x hx
  · intro t ht
    rw [addKnowledgeInit_knowledge] at ht
    split at ht
    · rw [List.mem_append, List.mem_singleton] at ht
      rcases ht with ht | rfl
      · exact h3 t ht
      · show count - ((neighbors s.height s.width cell ∩ s.mines).card : ℤ) =
          mineCount M ((neighbors s.height s.width cell \ insert cell s.safes) \ s.mines)
        have h2' : ∀ c ∈ s.mines, M c = true := h2
        rw [sdiff_sdiff_comm, mineCount_sdiff_safes, mineCount_sdiff_mines h2',
          hcount]
        intro x hx
        exact h1 x hx
    · exact h3 t ht

theorem truthful_pass {M : Cell → Bool} {s : AIState} (h : Truthful M s) :
    Truthful M (inferencePass s).1 := by
  obtain ⟨h1, h2, h3⟩ := h
  have hns : ∀ c ∈ passNewSafes s, M c = false := by
    intro c hc
    unfold passNewSafes at hc
    rw [Finset.mem_sdiff] at hc
    obtain ⟨hc, -⟩ := hc
    rw [mem_foldUnion] at hc
    obtain ⟨t, ht, hct⟩ := hc
    exact known_safes_sound (h3 t ht) hct
  have hnm : ∀ c ∈ passNewMines s, M c = true := by
    intro c hc
    unfold passNewMines at hc
    rw [Finset.mem_sdiff] at hc
    obtain ⟨hc, -⟩ := hc
    rw [mem_foldUnion] at hc
    obtain ⟨t, ht, hct⟩ := hc
    exact known_mines_sound (h3 t ht) hct
  have hpk : ∀ u ∈ passKnowledge s, u.count = mineCount M u.cells := by
    intro u hu
    unfold passKnowledge at hu
    rw [List.mem_filter] at hu
    obtain ⟨hu, -⟩ := hu
    rw [List.mem_map] at hu
    obtain ⟨u1, hu1, rfl⟩ := hu
    rw [List.mem_map] at hu1
    obtain ⟨u0, hu0, rfl⟩ := hu1
    show u0.count - (((u0.cells \ passNewSafes s) ∩ passNewMines s).card : ℤ) =
      mineCount M ((u0.cells \ passNewSafes s) \ passNewMines s)
    rw [mineCount_sdiff_mines hnm, mineCount_sdiff_safes hns, ← h3 u0 hu0]
  refine ⟨?_, ?_, ?_⟩
  · intro x hx
    have hx' : x ∈ s.safes ∪ passNewSafes s := hx
    rw [Finset.mem_union] at hx'
    rcases hx' with hx' | hx'
    · exact h1 x hx'
    · exact hns x hx'
  · intro x hx
    have hx' : x ∈ s.mines ∪ passNewMines s := hx
    rw [Finset.mem_union] at hx'
    rcases hx' with hx' | hx'
    · exact h2 x hx'
    · exact hnm x hx'
  · intro t ht
    have ht' : t ∈ passKnowledge s ++ newSentences (passKnowledge s) := ht
    rw [List.mem_append] at ht'
    rcases ht' with ht' | ht'
    · exact hpk t ht'
    · obtain ⟨⟨s1, hs1, s2, hs2, hc, rfl⟩, -, -⟩ := mem_newSentences.mp ht'
      show s2.count - s1.count = mineCount M (s2.cells \ s1.cells)
      rw [mineCount_sdiff_subset hc.2.2.2, ← hpk s1 hs1, ← hpk s2 hs2]

theorem truthful_loop {M : Cell → Bool} {n : ℕ} {s s' : AIState}
    (h : inferenceLoop n s = some s') (ht : Truthful M s) : Truthful M s' := by
  induction n generalizing s with
  | zero => simp [inferenceLoop] at h
  | succ n ih =>
    simp only [inferenceLoop] at h
    rcases hp : inferencePass s with ⟨s1, b⟩
    rw [hp] at h
    have hs1 : Truthful M s1 := by
      have e1 : (inferencePass s).1 = s1 := by rw [hp]
      rw [← e1]
      exact truthful_pass ht
    cases b with
    | true => exact ih (by simpa using h) hs1
    | false =>
      simp only [if_neg (Bool.false_ne_true), Option.some.injEq] at h
      subst h
      exact hs1

/-- Reachability with truthful inputs for a fixed mine assignment `M` (the
caller contract of the engine): `mark_safe` only on non-mines, `mark_mine`
only on mines, `add_knowledge` only with the true neighbour mine count of a
non-mine cell. -/
inductive ReachableT (M : Cell → Bool) : AIState → Prop
  | fresh (h w : ℕ) : ReachableT M (freshAI h w)
  | safeStep {s : AIState} (c : Cell) : ReachableT M s → M c = false →
      ReachableT M (s.mark_safe c)
  | mineStep {s : AIState} (c : Cell) : ReachableT M s → M c = true →
      ReachableT M (s.mark_mine c)
  | addStep {s s' : AIState} (fuel : ℕ) (c : Cell) (n : ℤ) : ReachableT M s →
      M c = false → n = mineCount M (neighbors s.height s.width c) →
      add_knowledge fuel s c n = some s' → ReachableT M s'

theorem reachableT_truthful {M : Cell → Bool} {s : AIState}
    (h : ReachableT M s) : Truthful M s := by
  induction h with
  | fresh h w =>
    refine ⟨?_, ?_, ?_⟩ <;> intro x hx <;> simp [freshAI] at hx
  | safeStep c _ hM ih => exact truthful_mark_safe ih hM
  | mineStep c _ hM ih => exact truthful_mark_mine ih hM
  | addStep fuel c n _ hM hn hadd ih =>
    exact truthful_loop hadd (truthful_init ih hM hn)

/-- C1 (amended theorem): under the caller contract — every input fact is
truthful for a fixed mine assignment `M` — every reachable state has
`safes` disjoint from `mines`: `safes` holds only non-mines and `mines`
only mines. -/
theorem c1_disjoint_of_truthful {M : Cell → Bool} {s : AIState}
    (h : ReachableT M s) : Disjoint s.safes s.mines := by
  obtain ⟨h1, h2, -⟩ := reachableT_truthful h
  rw [Finset.disjoint_left]
  intro c hc hm
  have := h2 c hm
  rw [h1 c hc] at this
  exact Bool.false_ne_true this

/-- C1 witness: a concrete truthful run (mine-free board, one `mark_safe`
and one truthful `add_knowledge`) ends with disjoint `safes` and `mines`. -/
theorem c1_disjoint_of_truthful_witness :
    Disjoint (((freshAI 2 2).mark_safe (0, 1)).safes)
      (((freshAI 2 2).mark_safe (0, 1)).mines) :=
  @c1_disjoint_of_truthful (fun _ => false) ((freshAI 2 2).mark_safe (0, 1))
    (ReachableT.safeStep (0, 1) (ReachableT.fresh 2 2) rfl)

/-! ### Termination of the inference loop under the caller contract -/

/-- The cells of the `height × width` grid. -/
def gridCells (h w : ℕ) : Finset Cell := Finset.range h ×ˢ Finset.range w

/-- Every sentence only mentions in-grid cells. -/
def CellsWF (s : AIState) : Prop :=
  ∀ t ∈ s.knowledge, t.cells ⊆ gridCells s.height s.width

theorem Sentence.ext' {t1 t2 : Sentence} (hc : t1.cells = t2.cells)
    (hn : t1.count = t2.count) : t1 = t2 := by
  cases t1
  cases t2
  simp only at hc hn
  rw [hc, hn]

theorem neighbors_subset_grid (h w : ℕ) (c : Cell) :
    neighbors h w c ⊆ gridCells h w := by
  intro p hp
  rw [mem_neighbors] at hp
  unfold gridCells
  rw [Finset.mem_product, Finset.mem_range, Finset.mem_range]
  exact ⟨hp.1, hp.2.1⟩

theorem cellsWF_mark_safe {s : AIState} (h : CellsWF s) (c : Cell) :
    CellsWF (s.mark_safe c) := by
  intro t ht
  obtain ⟨u, hu, rfl⟩ := List.mem_map.mp ht
  rw [Sentence.mark_safe_cells]
  exact (Finset.erase_subset _ _).trans (h u hu)

theorem cellsWF_mark_mine {s : AIState} (h : CellsWF s) (c : Cell) :
    CellsWF (s.mark_mine c) := by
  intro t ht
  obtain ⟨u, hu, rfl⟩ := List.mem_map.mp ht
  rw [Sentence.mark_mine_cells]
  exact (Finset.erase_subset _ _).trans (h u hu)

theorem cellsWF_init {s : AIState} (h : CellsWF s) (cell : Cell) (count : ℤ) :
    CellsWF (addKnowledgeInit s cell count) := by
  have hms : CellsWF (s.mark_safe cell) := cellsWF_mark_safe h cell
  intro t ht
  rw [addKnowledgeInit_knowledge] at ht
  have hgrid : gridCells (addKnowledgeInit s cell count).height
      (addKnowledgeInit s cell count).width = gridCells s.height s.width := by
    rw [addKnowledgeInit_height, addKnowledgeInit_width]
  rw [hgrid]
  split at ht
  · rw [List.mem_append, List.mem_singleton] at ht
    rcases ht with ht | rfl
    · exact hms t ht
    · exact (Finset.sdiff_subset.trans Finset.sdiff_subset).trans
        (neighbors_subset_grid s.height s.width cell)
  · exact hms t ht

theorem cellsWF_pass {s : AIState} (h : CellsWF s) :
    CellsWF (inferencePass s).1 := by
  have hpk : ∀ t ∈ passKnowledge s, t.cells ⊆ gridCells s.height s.width := by
    intro t ht
    unfold passKnowledge at ht
    rw [List.mem_filter] at ht
    obtain ⟨ht, -⟩ := ht
    rw [List.mem_map] at ht
    obtain ⟨u1, hu1, rfl⟩ := ht
    rw [List.mem_map] at hu1
    obtain ⟨u0, hu0, rfl⟩ := hu1
    exact (Finset.sdiff_subset.trans Finset.sdiff_subset).trans (h u0 hu0)
  intro t ht
  have ht' : t ∈ passKnowledge s ++ newSentences (passKnowledge s) := ht
  rw [List.mem_append] at ht'
  rcases ht' with ht' | ht'
  · exact hpk t ht'
  · obtain ⟨⟨s1, hs1, s2, hs2, hc, rfl⟩, -, -⟩ := mem_newSentences.mp ht'
    exact Finset.sdiff_subset.trans (hpk s2 hs2)

theorem cellsWF_loop {n : ℕ} {s s' : AIState} (h : inferenceLoop n s = some s')
    (hwf : CellsWF s) : CellsWF s' := by
  induction n generalizing s with
  | zero => simp [inferenceLoop] at h
  | succ n ih =>
    simp only [inferenceLoop] at h
    rcases hp : inferencePass s with ⟨s1, b⟩
    rw [hp] at h
    have hs1 : CellsWF s1 := by
      have e1 : (inferencePass s).1 = s1 := by rw [hp]
      rw [← e1]
      exact cellsWF_pass hwf
    cases b with
    | true => exact ih (by simpa using h) hs1
    | false =>
      simp only [if_neg (Bool.false_ne_true), Option.some.injEq] at h
      subst h
      exact hs1

theorem reachableT_cellsWF {M : Cell → Bool} {s : AIState}
    (h : ReachableT M s) : CellsWF s := by
  induction h with
  | fresh h w => intro t ht; simp [freshAI] at ht
  | safeStep c _ _ ih => exact cellsWF_mark_safe ih c
  | mineStep c _ _ ih => exact cellsWF_mark_mine ih c
  | addStep fuel c n _ _ _ hadd ih => exact cellsWF_loop hadd (cellsWF_init ih c n)

/-- The number of distinct non-empty sentences currently in `knowledge`. -/
def distinctNE (s : AIState) : ℕ :=
  ((s.knowledge.filter fun t => decide (t.cells ≠ ∅)).dedup).length

/-- Termination measure for the inference loop: undecided grid cells
weighted above the (bounded) count of distinct non-empty sentences. -/
def aiMeasure (s : AIState) : ℕ :=
  ((gridCells s.height s.width \ s.safes).card +
      (gridCells s.height s.width \ s.mines).card) *
    (2 ^ (s.height * s.width) + 1) +
  (2 ^ (s.height * s.width) - distinctNE s)

theorem distinctNE_le {M : Cell → Bool} {s : AIState} (ht : Truthful M s)
    (hwf : CellsWF s) : distinctNE s ≤ 2 ^ (s.height * s.width) := by
  obtain ⟨-, -, h3⟩ := ht
  unfold distinctNE
  rw [← List.card_toFinset]
  have hinj : Set.InjOn Sentence.cells
      ((s.knowledge.filter fun t => decide (t.cells ≠ ∅)).toFinset : Finset Sentence) := by
    intro t1 h1 t2 h2 he
    rw [Finset.mem_coe, List.mem_toFinset, List.mem_filter] at h1 h2
    refine Sentence.ext' he ?_
    rw [h3 t1 h1.1, h3 t2 h2.1, he]
  have himg : ((s.knowledge.filter fun t => decide (t.cells ≠ ∅)).toFinset).image
      Sentence.cells ⊆ (gridCells s.height s.width).powerset := by
    intro cs hcs
    rw [Finset.mem_image] at hcs
    obtain ⟨t, htF, rfl⟩ := hcs
    rw [List.mem_toFinset, List.mem_filter] at htF
    rw [Finset.mem_powerset]
    exact hwf t htF.1
  have h1 := Finset.card_image_of_injOn hinj
  have h2 := Finset.card_le_card himg
  rw [Finset.card_powerset] at h2
  have h3' : (gridCells s.height s.width).card = s.height * s.width := by
    unfold gridCells
    rw [Finset.card_product, Finset.card_range, Finset.card_range]
  rw [h3'] at h2
  omega

theorem known_safes_subset (t : Sentence) : t.known_safes ⊆ t.cells := by
  unfold Sentence.known_safes
  split
  · exact subset_rfl
  · exact Finset.empty_subset _

theorem known_mines_subset (t : Sentence) : t.known_mines ⊆ t.cells := by
  unfold Sentence.known_mines
  split
  · exact subset_rfl
  · exact Finset.empty_subset _

theorem passNewSafes_subset_grid {s : AIState} (hwf : CellsWF s) :
    passNewSafes s ⊆ gridCells s.height s.width := by
  intro c hc
  unfold passNewSafes at hc
  rw [Finset.mem_sdiff] at hc
  obtain ⟨hc, -⟩ := hc
  rw [mem_foldUnion] at hc
  obtain ⟨t, htm, hct⟩ := hc
  exact hwf t htm (known_safes_subset t hct)

theorem passNewMines_subset_grid {s : AIState} (hwf : CellsWF s) :
    passNewMines s ⊆ gridCells s.height s.width := by
  intro c hc
  unfold passNewMines at hc
  rw [Finset.mem_sdiff] at hc
  obtain ⟨hc, -⟩ := hc
  rw [mem_foldUnion] at hc
  obtain ⟨t, htm, hct⟩ := hc
  exact hwf t htm (known_mines_subset t hct)

theorem measure_arith {c1 c1' x x' B : ℕ} (h1 : c1' < c1) (h2 : x' ≤ B) :
    c1' * (B + 1) + x' < c1 * (B + 1) + x := by
  have hstep : c1' * (B + 1) + x' < (c1' + 1) * (B + 1) := by
    rw [Nat.succ_mul]
    omega
  calc c1' * (B + 1) + x' < (c1' + 1) * (B + 1) := hstep
    _ ≤ c1 * (B + 1) := Nat.mul_le_mul_right _ h1
    _ ≤ c1 * (B + 1) + x := Nat.le_add_right _ _

theorem pass_measure_lt {M : Cell → Bool} {s : AIState} (ht : Truthful M s)
    (hwf : CellsWF s) (hch : (inferencePass s).2 = true) :
    aiMeasure (inferencePass s).1 < aiMeasure s := by
  have hB' : distinctNE (inferencePass s).1 ≤ 2 ^ (s.height * s.width) :=
    distinctNE_le (truthful_pass ht) (cellsWF_pass hwf)
  have hchar : passNewSafes s ≠ ∅ ∨ passNewMines s ≠ ∅ ∨
      newSentences (passKnowledge s) ≠ [] := by
    by_contra hcon
    push_neg at hcon
    have hfalse := (pass_changed_false_iff s).mpr ⟨hcon.1, hcon.2.1, hcon.2.2⟩
    rw [hch] at hfalse
    exact Bool.noConfusion hfalse
  have hother_safes : (gridCells s.height s.width \ (s.safes ∪ passNewSafes s)).card ≤
      (gridCells s.height s.width \ s.safes).card :=
    Finset.card_le_card (Finset.sdiff_subset_sdiff subset_rfl Finset.subset_union_left)
  have hother_mines : (gridCells s.height s.width \ (s.mines ∪ passNewMines s)).card ≤
      (gridCells s.height s.width \ s.mines).card :=
    Finset.card_le_card (Finset.sdiff_subset_sdiff subset_rfl Finset.subset_union_left)
  by_cases hns : passNewSafes s ≠ ∅
  · obtain ⟨c, hc⟩ := Finset.nonempty_iff_ne_empty.mpr hns
    have hcG : c ∈ gridCells s.height s.width := passNewSafes_subset_grid hwf hc
    have hcs : c ∉ s.safes := by
      unfold passNewSafes at hc
      exact (Finset.mem_sdiff.mp hc).2
    have hstrict : (gridCells s.height s.width \ (s.safes ∪ passNewSafes s)).card <
        (gridCells s.height s.width \ s.safes).card := by
      apply Finset.card_lt_card
      rw [Finset.ssubset_iff_of_subset
        (Finset.sdiff_subset_sdiff subset_rfl Finset.subset_union_left)]
      exact ⟨c, Finset.mem_sdiff.mpr ⟨hcG, hcs⟩,
        fun hmem => (Finset.mem_sdiff.mp hmem).2 (Finset.mem_union_right _ hc)⟩
    show ((gridCells s.height s.width \ (s.safes ∪ passNewSafes s)).card +
        (gridCells s.height s.width \ (s.mines ∪ passNewMines s)).card) *
        (2 ^ (s.height * s.width) + 1) +
        (2 ^ (s.height * s.width) - distinctNE (inferencePass s).1) <
      ((gridCells s.height s.width \ s.safes).card +
        (gridCells s.height s.width \ s.mines).card) *
        (2 ^ (s.height * s.width) + 1) +
        (2 ^ (s.height * s.width) - distinctNE s)
    exact measure_arith (by omega) (Nat.sub_le _ _)
  by_cases hnm : passNewMines s ≠ ∅
  · obtain ⟨c, hc⟩ := Finset.nonempty_iff_ne_empty.mpr hnm
    have hcG : c ∈ gridCells s.height s.width := passNewMines_subset_grid hwf hc
    have hcs : c ∉ s.mines := by
      unfold passNewMines at hc
      exact (Finset.mem_sdiff.mp hc).2
    have hstrict : (gridCells s.height s.width \ (s.mines ∪ passNewMines s)).card <
        (gridCells s.height s.width \ s.mines).card := by
      apply Finset.card_lt_card
      rw [Finset.ssubset_iff_of_subset
        (Finset.sdiff_subset_sdiff subset_rfl Finset.subset_union_left)]
      exact ⟨c, Finset.mem_sdiff.mpr ⟨hcG, hcs⟩,
        fun hmem => (Finset.mem_sdiff.mp hmem).2 (Finset.mem_union_right _ hc)⟩
    show ((gridCells s.height s.width \ (s.safes ∪ passNewSafes s)).card +
        (gridCells s.height s.width \ (s.mines ∪ passNewMines s)).card) *
        (2 ^ (s.height * s.width) + 1) +
        (2 ^ (s.height * s.width) - distinctNE (inferencePass s).1) <
      ((gridCells s.height s.width \ s.safes).card +
        (gridCells s.height s.width \ s.mines).card) *
        (2 ^ (s.height * s.width) + 1) +
        (2 ^ (s.height * s.width) - distinctNE s)
    exact measure_arith (by omega) (Nat.sub_le _ _)
  · push_neg at hns hnm
    have hnews : newSentences (passKnowledge s) ≠ [] := by
      rcases hchar with h | h | h
      · exact absurd hns h
      · exact absurd hnm h
      · exact h
    have hpk := passKnowledge_of_no_marks hns hnm
    have hd : distinctNE (inferencePass s).1 =
        distinctNE s + (newSentences (passKnowledge s)).toFinset.card := by
      show ((passKnowledge s ++ newSentences (passKnowledge s)).filter
          fun t => decide (t.cells ≠ ∅)).dedup.length = _
      rw [List.filter_append]
      have hf1 : (passKnowledge s).filter (fun t => decide (t.cells ≠ ∅)) =
          passKnowledge s := by
        apply List.filter_eq_self.mpr
        intro t htm
        rw [hpk, List.mem_filter] at htm
        exact htm.2
      have hf2 : (newSentences (passKnowledge s)).filter
          (fun t => decide (t.cells ≠ ∅)) = newSentences (passKnowledge s) := by
        apply List.filter_eq_self.mpr
        intro t htm
        simpa using newSentences_cells_ne htm
      rw [hf1, hf2, ← List.card_toFinset, List.toFinset_append,
        Finset.card_union_of_disjoint]
      · have hds : distinctNE s = (passKnowledge s).toFinset.card := by
          unfold distinctNE
          rw [← hpk, List.card_toFinset]
        rw [hds]
      · rw [Finset.disjoint_left]
        intro a ha hb
        rw [List.mem_toFinset] at ha hb
        exact newSentences_not_mem hb ha
    have hcard1 : 1 ≤ (newSentences (passKnowledge s)).toFinset.card := by
      rcases List.exists_mem_of_ne_nil _ hnews with ⟨x, hx⟩
      have : x ∈ (newSentences (passKnowledge s)).toFinset := List.mem_toFinset.mpr hx
      exact Finset.card_pos.mpr ⟨x, this⟩
    show ((gridCells s.height s.width \ (s.safes ∪ passNewSafes s)).card +
        (gridCells s.height s.width \ (s.mines ∪ passNewMines s)).card) *
        (2 ^ (s.height * s.width) + 1) +
        (2 ^ (s.height * s.width) - distinctNE (inferencePass s).1) <
      ((gridCells s.height s.width \ s.safes).card +
        (gridCells s.height s.width \ s.mines).card) *
        (2 ^ (s.height * s.width) + 1) +
        (2 ^ (s.height * s.width) - distinctNE s)
    rw [hns, hnm, Finset.union_empty, Finset.union_empty]
    apply Nat.add_lt_add_left
    omega

theorem loop_terminates {M : Cell → Bool} (s : AIState) (ht : Truthful M s)
    (hwf : CellsWF s) : ∃ n s', inferenceLoop n s = some s' := by
  generalize hμ : aiMeasure s = μ
  induction μ using Nat.strong_induction_on generalizing s with
  | _ μ ih =>
    subst hμ
    rcases hp : inferencePass s with ⟨s1, b⟩
    have e1 : (inferencePass s).1 = s1 := by rw [hp]
    cases b with
    | false =>
      refine ⟨1, s1, ?_⟩
      simp only [inferenceLoop]
      rw [hp]
      simp
    | true =>
      have ht1 : Truthful M s1 := by
        rw [← e1]
        exact truthful_pass ht
      have hwf1 : CellsWF s1 := by
        rw [← e1]
        exact cellsWF_pass hwf
      have hdec : aiMeasure s1 < aiMeasure s := by
        rw [← e1]
        exact pass_measure_lt ht hwf (by rw [hp])
      obtain ⟨n, s', hn⟩ := ih (aiMeasure s1) hdec s1 ht1 hwf1 rfl
      refine ⟨n + 1, s', ?_⟩
      simp only [inferenceLoop]
      rw [hp]
      simpa using hn

/-- C3 (amended theorem): under the caller contract — the state is truthful
for some mine assignment `M` with in-grid sentences, the revealed cell is
not a mine, and the reported count is the true number of mines among its
neighbours — `add_knowledge` terminates: some finite fuel makes the
embedded fixpoint loop return. -/
theorem c3_add_knowledge_terminates {M : Cell → Bool} {s : AIState}
    {cell : Cell} {count : ℤ} (hr : ReachableT M s) (hc : M cell = false)
    (hcount : count = mineCount M (neighbors s.height s.width cell)) :
    ∃ fuel s', add_knowledge fuel s cell count = some s' := by
  have ht' : Truthful M (addKnowledgeInit s cell count) :=
    truthful_init (reachableT_truthful hr) hc hcount
  have hwf' : CellsWF (addKnowledgeInit s cell count) :=
    cellsWF_init (reachableT_cellsWF hr) cell count
  exact loop_terminates _ ht' hwf'

/-- C3 amended-theorem witness: the truthful call `add_knowledge((0,0),0)`
on a fresh mine-free 2×2 board terminates. -/
theorem c3_add_knowledge_terminates_witness :
    ∃ fuel s', add_knowledge fuel (freshAI 2 2) (0, 0) 0 = some s' :=
  @c3_add_knowledge_terminates (fun _ => false) (freshAI 2 2) (0, 0) 0
    (ReachableT.fresh 2 2) rfl (by decide)

/-! ### A reachable diverging run of the inference loop -/

/-- The cell set `{(0,1)}` of the pumped run. -/
def pumpA : Finset Cell := {(0, 1)}

/-- The cell set `{(0,3)}` of the pumped run. -/
def pumpB : Finset Cell := {(0, 3)}

/-- The cell set `{(0,1),(0,3)}` of the pumped run. -/
def pumpP : Finset Cell := {(0, 1), (0, 3)}

/-- The invariant of the diverging run: the knowledge holds the two
contradictory sentences `{(0,1),(0,3)}=10` and `{(0,1),(0,3)}=20` plus
singleton sentences on `(0,1)` and on `(0,3)` whose counts form a set `X`
of integers congruent to 5 mod 10. -/
def PumpInv (s : AIState) : Prop :=
  ∃ X : Finset ℤ, X.Nonempty ∧ (∀ x ∈ X, x % 10 = 5) ∧
    ∀ t : Sentence, t ∈ s.knowledge ↔
      t = ⟨pumpP, 10⟩ ∨ t = ⟨pumpP, 20⟩ ∨
        ∃ x ∈ X, (t = ⟨pumpA, x⟩ ∨ t = ⟨pumpB, x⟩)

theorem pump_no_triggers {X : Finset ℤ} (hmod : ∀ x ∈ X, x % 10 = 5)
    {t : Sentence}
    (ht : t = ⟨pumpP, 10⟩ ∨ t = ⟨pumpP, 20⟩ ∨
      ∃ x ∈ X, (t = ⟨pumpA, x⟩ ∨ t = ⟨pumpB, x⟩)) :
    t.known_safes = ∅ ∧ t.known_mines = ∅ := by
  rcases ht with rfl | rfl | ⟨x, hx, rfl | rfl⟩
  · exact ⟨by decide, by decide⟩
  · exact ⟨by decide, by decide⟩
  · have h5 := hmod x hx
    constructor
    · exact if_neg (show ¬x = 0 by omega)
    · refine if_neg ?_
      intro hcontra
      have hcontra1 : (1 : ℤ) = x := hcontra
      omega
  · have h5 := hmod x hx
    constructor
    · exact if_neg (show ¬x = 0 by omega)
    · refine if_neg ?_
      intro hcontra
      have hcontra1 : (1 : ℤ) = x := hcontra
      omega

theorem pump_no_marks {s : AIState} (h : PumpInv s) :
    passNewSafes s = ∅ ∧ passNewMines s = ∅ := by
  obtain ⟨X, hXne, hmod, hiff⟩ := h
  have hfs : foldUnion s.knowledge Sentence.known_safes = ∅ := by
    rw [Finset.eq_empty_iff_forall_not_mem]
    intro c hc
    rw [mem_foldUnion] at hc
    obtain ⟨t, htm, hct⟩ := hc
    rw [(pump_no_triggers hmod ((hiff t).mp htm)).1] at hct
    exact Finset.not_mem_empty c hct
  have hfm : foldUnion s.knowledge Sentence.known_mines = ∅ := by
    rw [Finset.eq_empty_iff_forall_not_mem]
    intro c hc
    rw [mem_foldUnion] at hc
    obtain ⟨t, htm, hct⟩ := hc
    rw [(pump_no_triggers hmod ((hiff t).mp htm)).2] at hct
    exact Finset.not_mem_empty c hct
  unfold passNewSafes passNewMines
  rw [hfs, hfm, Finset.empty_sdiff, Finset.empty_sdiff]
  exact ⟨rfl, rfl⟩

theorem pump_passKnowledge {s : AIState} (h : PumpInv s) :
    passKnowledge s = s.knowledge := by
  obtain ⟨hns, hnm⟩ := pump_no_marks h
  obtain ⟨X, hXne, hmod, hiff⟩ := h
  rw [passKnowledge_of_no_marks hns hnm]
  apply List.filter_eq_self.mpr
  intro t htm
  rcases (hiff t).mp htm with rfl | rfl | ⟨x, hx, rfl | rfl⟩
  · decide
  · decide
  · show decide (pumpA ≠ ∅) = true
    decide
  · show decide (pumpB ≠ ∅) = true
    decide

theorem pump_mem_news {s : AIState} {X : Finset ℤ}
    (hiff : ∀ t : Sentence, t ∈ s.knowledge ↔
      t = ⟨pumpP, 10⟩ ∨ t = ⟨pumpP, 20⟩ ∨
        ∃ x ∈ X, (t = ⟨pumpA, x⟩ ∨ t = ⟨pumpB, x⟩))
    {d : Sentence} :
    d ∈ newSentences s.knowledge ↔
      (∃ x ∈ X, (d = ⟨pumpB, 10 - x⟩ ∨ d = ⟨pumpB, 20 - x⟩ ∨
        d = ⟨pumpA, 10 - x⟩ ∨ d = ⟨pumpA, 20 - x⟩)) ∧ d ∉ s.knowledge := by
  rw [mem_newSentences]
  constructor
  · rintro ⟨⟨s1, hs1, s2, hs2, hc, rfl⟩, hne', hnk⟩
    refine ⟨?_, hnk⟩
    rcases (hiff s1).mp hs1 with rfl | rfl | ⟨x, hx, rfl | rfl⟩ <;>
      rcases (hiff s2).mp hs2 with rfl | rfl | ⟨y, hy, rfl | rfl⟩
    · exact absurd rfl hc.1
    · exact absurd hne' (show ¬(pumpP \ pumpP ≠ ∅) by decide)
    · exact absurd hc.2.2.2 (show ¬(pumpP ⊆ pumpA) by decide)
    · exact absurd hc.2.2.2 (show ¬(pumpP ⊆ pumpB) by decide)
    · exact absurd hne' (show ¬(pumpP \ pumpP ≠ ∅) by decide)
    · exact absurd rfl hc.1
    · exact absurd hc.2.2.2 (show ¬(pumpP ⊆ pumpA) by decide)
    · exact absurd hc.2.2.2 (show ¬(pumpP ⊆ pumpB) by decide)
    · exact ⟨x, hx, Or.inl (Sentence.ext' (show pumpP \ pumpA = pumpB by decide) rfl)⟩
    · exact ⟨x, hx, Or.inr (Or.inl
        (Sentence.ext' (show pumpP \ pumpA = pumpB by decide) rfl))⟩
    · exact absurd hne' (show ¬(pumpA \ pumpA ≠ ∅) by decide)
    · exact absurd hc.2.2.2 (show ¬(pumpA ⊆ pumpB) by decide)
    · exact ⟨x, hx, Or.inr (Or.inr (Or.inl
        (Sentence.ext' (show pumpP \ pumpB = pumpA by decide) rfl)))⟩
    · exact ⟨x, hx, Or.inr (Or.inr (Or.inr
        (Sentence.ext' (show pumpP \ pumpB = pumpA by decide) rfl)))⟩
    · exact absurd hc.2.2.2 (show ¬(pumpB ⊆ pumpA) by decide)
    · exact absurd hne' (show ¬(pumpB \ pumpB ≠ ∅) by decide)
  · rintro ⟨⟨x, hx, hd⟩, hnk⟩
    refine ⟨?_, ?_, hnk⟩
    · rcases hd with rfl | rfl | rfl | rfl
      · refine ⟨⟨pumpA, x⟩, (hiff _).mpr (Or.inr (Or.inr ⟨x, hx, Or.inl rfl⟩)),
          ⟨pumpP, 10⟩, (hiff _).mpr (Or.inl rfl), ⟨?_, ?_, ?_, ?_⟩, ?_⟩
        · intro habs
          exact absurd (congrArg Sentence.cells habs) (show ¬(pumpA = pumpP) by decide)
        · show pumpA ≠ ∅
          decide
        · show pumpP ≠ ∅
          decide
        · show pumpA ⊆ pumpP
          decide
        · exact Sentence.ext' (show pumpB = pumpP \ pumpA by decide) rfl
      · refine ⟨⟨pumpA, x⟩, (hiff _).mpr (Or.inr (Or.inr ⟨x, hx, Or.inl rfl⟩)),
          ⟨pumpP, 20⟩, (hiff _).mpr (Or.inr (Or.inl rfl)), ⟨?_, ?_, ?_, ?_⟩, ?_⟩
        · intro habs
          exact absurd (congrArg Sentence.cells habs) (show ¬(pumpA = pumpP) by decide)
        · show pumpA ≠ ∅
          decide
        · show pumpP ≠ ∅
          decide
        · show pumpA ⊆ pumpP
          decide
        · exact Sentence.ext' (show pumpB = pumpP \ pumpA by decide) rfl
      · refine ⟨⟨pumpB, x⟩, (hiff _).mpr (Or.inr (Or.inr ⟨x, hx, Or.inr rfl⟩)),
          ⟨pumpP, 10⟩, (hiff _).mpr (Or.inl rfl), ⟨?_, ?_, ?_, ?_⟩, ?_⟩
        · intro habs
          exact absurd (congrArg Sentence.cells habs) (show ¬(pumpB = pumpP) by decide)
        · show pumpB ≠ ∅
          decide
        · show pumpP ≠ ∅
          decide
        · show pumpB ⊆ pumpP
          decide
        · exact Sentence.ext' (show pumpA = pumpP \ pumpB by decide) rfl
      · refine ⟨⟨pumpB, x⟩, (hiff _).mpr (Or.inr (Or.inr ⟨x, hx, Or.inr rfl⟩)),
          ⟨pumpP, 20⟩, (hiff _).mpr (Or.inr (Or.inl rfl)), ⟨?_, ?_, ?_, ?_⟩, ?_⟩
        · intro habs
          exact absurd (congrArg Sentence.cells habs) (show ¬(pumpB = pumpP) by decide)
        · show pumpB ≠ ∅
          decide
        · show pumpP ≠ ∅
          decide
        · show pumpB ⊆ pumpP
          decide
        · exact Sentence.ext' (show pumpA = pumpP \ pumpB by decide) rfl
    · rcases hd with rfl | rfl | rfl | rfl
      · show pumpB ≠ ∅
        decide
      · show pumpB ≠ ∅
        decide
      · show pumpA ≠ ∅
        decide
      · show pumpA ≠ ∅
        decide

theorem pump_news_ne {s : AIState} {X : Finset ℤ} (hXne : X.Nonempty)
    (hiff : ∀ t : Sentence, t ∈ s.knowledge ↔
      t = ⟨pumpP, 10⟩ ∨ t = ⟨pumpP, 20⟩ ∨
        ∃ x ∈ X, (t = ⟨pumpA, x⟩ ∨ t = ⟨pumpB, x⟩)) :
    newSentences s.knowledge ≠ [] := by
  by_cases hcase : (10 - X.max' hXne) ∈ X
  · have hnot : (20 - X.min' hXne) ∉ X := by
      intro hin
      have h1 := X.min'_le _ hcase
      have h2 := X.le_max' _ hin
      omega
    have hd : (⟨pumpB, 20 - X.min' hXne⟩ : Sentence) ∈ newSentences s.knowledge := by
      rw [pump_mem_news hiff]
      refine ⟨⟨X.min' hXne, X.min'_mem hXne, Or.inr (Or.inl rfl)⟩, ?_⟩
      intro habs
      rcases (hiff _).mp habs with h | h | ⟨x, hx, h | h⟩
      · exact absurd (congrArg Sentence.cells h) (show ¬(pumpB = pumpP) by decide)
      · exact absurd (congrArg Sentence.cells h) (show ¬(pumpB = pumpP) by decide)
      · exact absurd (congrArg Sentence.cells h) (show ¬(pumpB = pumpA) by decide)
      · have hcnt := congrArg Sentence.count h
        simp only at hcnt
        rw [← hcnt] at hx
        exact hnot hx
    exact List.ne_nil_of_mem hd
  · have hd : (⟨pumpB, 10 - X.max' hXne⟩ : Sentence) ∈ newSentences s.knowledge := by
      rw [pump_mem_news hiff]
      refine ⟨⟨X.max' hXne, X.max'_mem hXne, Or.inl rfl⟩, ?_⟩
      intro habs
      rcases (hiff _).mp habs with h | h | ⟨x, hx, h | h⟩
      · exact absurd (congrArg Sentence.cells h) (show ¬(pumpB = pumpP) by decide)
      · exact absurd (congrArg Sentence.cells h) (show ¬(pumpB = pumpP) by decide)
      · exact absurd (congrArg Sentence.cells h) (show ¬(pumpB = pumpA) by decide)
      · have hcnt := congrArg Sentence.count h
        simp only at hcnt
        rw [← hcnt] at hx
        exact hcase hx
    exact List.ne_nil_of_mem hd

theorem pump_pass {s : AIState} (h : PumpInv s) :
    (inferencePass s).2 = true ∧ PumpInv (inferencePass s).1 := by
  obtain ⟨X, hXne, hmod, hiff⟩ := h
  have hpk : passKnowledge s = s.knowledge :=
    pump_passKnowledge ⟨X, hXne, hmod, hiff⟩
  have hnews : newSentences (passKnowledge s) ≠ [] := by
    rw [hpk]
    exact pump_news_ne hXne hiff
  constructor
  · show (decide (passNewSafes s ≠ ∅) || decide (passNewMines s ≠ ∅) ||
      decide (newSentences (passKnowledge s) ≠ [])) = true
    simp only [Bool.or_eq_true, decide_eq_true_eq]
    exact Or.inr hnews
  · refine ⟨(X ∪ X.image (fun x => 10 - x)) ∪ X.image (fun x => 20 - x), ?_, ?_, ?_⟩
    · obtain ⟨x0, hx0⟩ := hXne
      exact ⟨x0, Finset.mem_union_left _ (Finset.mem_union_left _ hx0)⟩
    · intro x' hx'
      rw [Finset.mem_union, Finset.mem_union] at hx'
      rcases hx' with (hx' | hx') | hx'
      · exact hmod x' hx'
      · obtain ⟨y, hy, rfl⟩ := Finset.mem_image.mp hx'
        have := hmod y hy
        omega
      · obtain ⟨y, hy, rfl⟩ := Finset.mem_image.mp hx'
        have := hmod y hy
        omega
    · intro t
      show t ∈ passKnowledge s ++ newSentences (passKnowledge s) ↔ _
      rw [hpk, List.mem_append]
      have hXsub : ∀ y ∈ X, y ∈ (X ∪ X.image (fun x => 10 - x)) ∪
          X.image (fun x => 20 - x) := fun y hy =>
        Finset.mem_union_left _ (Finset.mem_union_left _ hy)
      have h10 : ∀ y ∈ X, 10 - y ∈ (X ∪ X.image (fun x => 10 - x)) ∪
          X.image (fun x => 20 - x) := fun y hy =>
        Finset.mem_union_left _ (Finset.mem_union_right _
          (Finset.mem_image_of_mem _ hy))
      have h20 : ∀ y ∈ X, 20 - y ∈ (X ∪ X.image (fun x => 10 - x)) ∪
          X.image (fun x => 20 - x) := fun y hy =>
        Finset.mem_union_right _ (Finset.mem_image_of_mem _ hy)
      constructor
      · rintro (htm | htm)
        · rcases (hiff t).mp htm with rfl | rfl | ⟨x, hx, rfl | rfl⟩
          · exact Or.inl rfl
          · exact Or.inr (Or.inl rfl)
          · exact Or.inr (Or.inr ⟨x, hXsub x hx, Or.inl rfl⟩)
          · exact Or.inr (Or.inr ⟨x, hXsub x hx, Or.inr rfl⟩)
        · rw [pump_mem_news hiff] at htm
          obtain ⟨⟨x, hx, hd⟩, -⟩ := htm
          rcases hd with rfl | rfl | rfl | rfl
          · exact Or.inr (Or.inr ⟨10 - x, h10 x hx, Or.inr rfl⟩)
          · exact Or.inr (Or.inr ⟨20 - x, h20 x hx, Or.inr rfl⟩)
          · exact Or.inr (Or.inr ⟨10 - x, h10 x hx, Or.inl rfl⟩)
          · exact Or.inr (Or.inr ⟨20 - x, h20 x hx, Or.inl rfl⟩)
      · rintro (rfl | rfl | ⟨x', hx', hd⟩)
        · exact Or.inl ((hiff _).mpr (Or.inl rfl))
        · exact Or.inl ((hiff _).mpr (Or.inr (Or.inl rfl)))
        · rw [Finset.mem_union, Finset.mem_union] at hx'
          rcases hx' with (hx' | hx') | hx'
          · rcases hd with rfl | rfl
            · exact Or.inl ((hiff _).mpr (Or.inr (Or.inr ⟨x', hx', Or.inl rfl⟩)))
            · exact Or.inl ((hiff _).mpr (Or.inr (Or.inr ⟨x', hx', Or.inr rfl⟩)))
          · obtain ⟨x, hx, rfl⟩ := Finset.mem_image.mp hx'
            rcases hd with rfl | rfl
            · by_cases hK : (⟨pumpA, 10 - x⟩ : Sentence) ∈ s.knowledge
              · exact Or.inl hK
              · refine Or.inr ?_
                rw [pump_mem_news hiff]
                exact ⟨⟨x, hx, Or.inr (Or.inr (Or.inl rfl))⟩, hK⟩
            · by_cases hK : (⟨pumpB, 10 - x⟩ : Sentence) ∈ s.knowledge
              · exact Or.inl hK
              · refine Or.inr ?_
                rw [pump_mem_news hiff]
                exact ⟨⟨x, hx, Or.inl rfl⟩, hK⟩
          · obtain ⟨x, hx, rfl⟩ := Finset.mem_image.mp hx'
            rcases hd with rfl | rfl
            · by_cases hK : (⟨pumpA, 20 - x⟩ : Sentence) ∈ s.knowledge
              · exact Or.inl hK
              · refine Or.inr ?_
                rw [pump_mem_news hiff]
                exact ⟨⟨x, hx, Or.inr (Or.inr (Or.inr rfl))⟩, hK⟩
            · by_cases hK : (⟨pumpB, 20 - x⟩ : Sentence) ∈ s.knowledge
              · exact Or.inl hK
              · refine Or.inr ?_
                rw [pump_mem_news hiff]
                exact ⟨⟨x, hx, Or.inr (Or.inl rfl)⟩, hK⟩

theorem pump_loop_diverges : ∀ (n : ℕ) (s : AIState), PumpInv s →
    inferenceLoop n s = none := by
  intro n
  induction n with
  | zero => intro s _; rfl
  | succ n ih =>
    intro s hs
    obtain ⟨hch, hinv'⟩ := pump_pass hs
    simp only [inferenceLoop]
    rw [hch]
    simp only [if_true]
    exact ih _ hinv'

/-- The state after `add_knowledge((0,2),10)` and `add_knowledge((0,0),5)`
on a fresh 1×6 AI. -/
def pumpS2 : AIState :=
  ⟨1, 6, {(0, 0), (0, 2)}, ∅, {(0, 0), (0, 2)},
   [⟨pumpP, 10⟩, ⟨pumpA, 5⟩, ⟨pumpB, 5⟩]⟩

theorem pump_seed : PumpInv (addKnowledgeInit pumpS2 (0, 2) 20) := by
  have he : (addKnowledgeInit pumpS2 (0, 2) 20).knowledge =
      [⟨pumpP, 10⟩, ⟨pumpA, 5⟩, ⟨pumpB, 5⟩, ⟨pumpP, 20⟩] := by decide
  refine ⟨{5}, ⟨5, Finset.mem_singleton_self 5⟩, ?_, ?_⟩
  · intro x hx
    rw [Finset.mem_singleton] at hx
    subst hx
    decide
  · intro t
    rw [he]
    simp only [List.mem_cons, List.not_mem_nil, or_false, Finset.mem_singleton]
    constructor
    · rintro (rfl | rfl | rfl | rfl)
      · exact Or.inl rfl
      · exact Or.inr (Or.inr ⟨5, rfl, Or.inl rfl⟩)
      · exact Or.inr (Or.inr ⟨5, rfl, Or.inr rfl⟩)
      · exact Or.inr (Or.inl rfl)
    · rintro (rfl | rfl | ⟨x, rfl, rfl | rfl⟩)
      · exact Or.inl rfl
      · exact Or.inr (Or.inr (Or.inr rfl))
      · exact Or.inr (Or.inl rfl)
      · exact Or.inr (Or.inr (Or.inl rfl))

/-- C3 (counterexample): after the reachable calls `add_knowledge((0,2),10)`
and `add_knowledge((0,0),5)` on a fresh 1×6 AI (counts no real board can
produce, which §6 of the interface leaves to the caller), the further call
`add_knowledge((0,2),20)` never returns: subset inference keeps deriving
singleton sentences with new counts forever, so no fuel suffices. -/
theorem c3_divergence_counterexample :
    (add_knowledge 10 (freshAI 1 6) (0, 2) 10).bind
        (fun s => add_knowledge 10 s (0, 0) 5) = some pumpS2 ∧
    addKnowledgeDiverges pumpS2 (0, 2) 20 := by
  refine ⟨by decide, ?_⟩
  intro fuel
  unfold add_knowledge
  exact pump_loop_diverges fuel _ pump_seed
